import Mathlib

/-!
Verification of the `flutter_embedder` compositor and platform-message bridge.

This file shallowly embeds the Rust sources of the repository and proves the
spec's testable properties about them:

* `src/flutter_application/message_codec.rs` — the standard message codec
  (deserializer); byte buffers are `List Nat` (each byte < 256 for values
  produced by the encoder), cursor positions are `Nat`, fallible reads return
  `Except CodecError`.
* `src/flutter_application/keyboard.rs` — the text-editing state machine.
* `src/flutter_application.rs` (`platform_message_callback`) — the
  platform-message response discipline.
* `src/flutter_application/compositor.rs` (`present_layers_callback`) — the
  layer walk and draw-call ordering.

The repository contains no encoder for the codec (only the serde
`Deserializer`), so the encoder is modelled from the spec where a claim needs
it; every such definition is marked `Modelled from the spec:` in its doc
comment.  Floating-point payloads are carried as raw little-endian bit
patterns (`Nat`), never interpreted arithmetically.
-/

deriving instance DecidableEq for Except

namespace MessageCodec

/-- Little-endian value of a byte list: `fromLE [b0, b1, …] = b0 + 256*b1 + …`.
Embeds `u16::from_le_bytes`/`u32::from_le_bytes`/`i64::from_le_bytes` (the
latter after reinterpreting as signed, see `i32OfLE`/`i64OfLE`). -/
def fromLE : List Nat → Nat
  | [] => 0
  | b :: rest => b % 256 + 256 * fromLE rest

/-- Little-endian byte list of width `w` for the value `n % 256^w`.
Used by the spec-modelled encoder. -/
def toLE : Nat → Nat → List Nat
  | _, 0 => []
  | n, w + 1 => (n % 256) :: toLE (n / 256) w

/-- Signed 32-bit reinterpretation of 4 little-endian bytes
(`i32::from_le_bytes`). -/
def i32OfLE (bs : List Nat) : Int :=
  let u := fromLE bs
  if u < 2147483648 then (u : Int) else (u : Int) - 4294967296

/-- Signed 64-bit reinterpretation of 8 little-endian bytes
(`i64::from_le_bytes`). -/
def i64OfLE (bs : List Nat) : Int :=
  let u := fromLE bs
  if u < 9223372036854775808 then (u : Int) else (u : Int) - 18446744073709551616

/-- Decode errors of the codec, mirroring `enum Error` in `message_codec.rs`.
(`Eof` is the spec's `UnexpectedEndOfInput`, `TrailingCharacters` the spec's
`TrailingBytes`, `InvalidFieldType` the spec's `InvalidTypeTag`.)  The extra
`outOfFuel` value is an artifact of the fuel-indexed embedding of the
recursive-descent decoder; it is never returned when the fuel exceeds the
input length, as it does in `fromSliceValue`. -/
inductive CodecError where
  | tupleLength
  | expectedNil
  | utf8Error
  | valueOutOfRange
  | invalidFieldType
  | trailingCharacters
  | eof
  | message
  | outOfFuel
  deriving DecidableEq, Repr

/-- The type tags of the wire format, mirroring `enum FlutterStandardField`
(discriminants 0..14 in declaration order, via `#[repr(u8)]` and
`FromPrimitive`). -/
inductive FlutterStandardField where
  | nil
  | true_
  | false_
  | int32
  | int64
  | intHex
  | float64
  | string
  | uint8Data
  | int32Data
  | int64Data
  | float64Data
  | list
  | map
  | float32Data
  deriving DecidableEq, Repr

/-- `FlutterStandardField::from_u8`: tag byte to field type, `none` for an
unrecognized byte. -/
def fieldTypeOfByte : Nat → Option FlutterStandardField
  | 0 => some .nil
  | 1 => some .true_
  | 2 => some .false_
  | 3 => some .int32
  | 4 => some .int64
  | 5 => some .intHex
  | 6 => some .float64
  | 7 => some .string
  | 8 => some .uint8Data
  | 9 => some .int32Data
  | 10 => some .int64Data
  | 11 => some .float64Data
  | 12 => some .list
  | 13 => some .map
  | 14 => some .float32Data
  | _ => none

/-- `Deserializer::read_bytes::<N>`: returns the `n` bytes at the cursor and
the advanced cursor, or `Eof` when the read would exceed the buffer
(`self.pos + N > self.input.len()`). -/
def readBytes (input : List Nat) (pos n : Nat) : Except CodecError (List Nat × Nat) :=
  if input.length < pos + n then .error .eof
  else .ok ((input.drop pos).take n, pos + n)

/-- `Deserializer::read_data`: same bounds discipline as `read_bytes` but for a
run-time length. -/
def readData (input : List Nat) (pos len : Nat) : Except CodecError (List Nat × Nat) :=
  if input.length < pos + len then .error .eof
  else .ok ((input.drop pos).take len, pos + len)

/-- `Deserializer::read_byte`: the single byte at the cursor. -/
def readByte (input : List Nat) (pos : Nat) : Except CodecError (Nat × Nat) :=
  match readBytes input pos 1 with
  | .error e => .error e
  | .ok (bs, pos) => .ok (bs.headD 0, pos)

/-- `Deserializer::read_field_type`: read one byte and map it through
`FlutterStandardField::from_u8`, failing with `InvalidFieldType` for an
unrecognized byte. -/
def readFieldType (input : List Nat) (pos : Nat) :
    Except CodecError (FlutterStandardField × Nat) :=
  match readByte input pos with
  | .error e => .error e
  | .ok (b, pos) =>
    match fieldTypeOfByte b with
    | some t => .ok (t, pos)
    | none => .error .invalidFieldType

/-- `Deserializer::peek_field_type`: like `read_field_type` but without
advancing the cursor. -/
def peekFieldType (input : List Nat) (pos : Nat) : Except CodecError FlutterStandardField :=
  if input.length ≤ pos then .error .eof
  else
    match fieldTypeOfByte ((input.drop pos).headD 0) with
    | some t => .ok t
    | none => .error .invalidFieldType

/-- `Deserializer::read_size`: the variable-width size prefix.  A first byte
below 254 is the size itself; 254 announces a little-endian 16-bit size and
255 a little-endian 32-bit size. -/
def readSize (input : List Nat) (pos : Nat) : Except CodecError (Nat × Nat) :=
  match readByte input pos with
  | .error e => .error e
  | .ok (b, pos) =>
    if b < 254 then .ok (b, pos)
    else if b = 254 then
      match readBytes input pos 2 with
      | .error e => .error e
      | .ok (bs, pos) => .ok (fromLE bs, pos)
    else
      match readBytes input pos 4 with
      | .error e => .error e
      | .ok (bs, pos) => .ok (fromLE bs, pos)

/-- Cursor alignment performed by `PrimitiveListDeserializer::new`: pad the
cursor forward to the next multiple of the element size unless it is already
aligned. -/
def alignPos (pos s : Nat) : Nat :=
  let m := pos % s
  if m ≠ 0 then pos + (s - m) else pos

/-- UTF-8 validity of a byte sequence, as checked by `std::str::from_utf8`
inside `deserialize_str`/`deserialize_string` (RFC 3629 well-formedness:
shortest forms only, no surrogates, code points at most U+10FFFF). -/
def utf8Valid : List Nat → Bool
  | [] => true
  | b :: rest =>
    if b < 0x80 then utf8Valid rest
    else if b < 0xC2 then false
    else if b < 0xE0 then
      match rest with
      | c1 :: rest1 => decide (0x80 ≤ c1 ∧ c1 < 0xC0) && utf8Valid rest1
      | _ => false
    else if b = 0xE0 then
      match rest with
      | c1 :: c2 :: rest2 =>
        decide (0xA0 ≤ c1 ∧ c1 < 0xC0 ∧ 0x80 ≤ c2 ∧ c2 < 0xC0) && utf8Valid rest2
      | _ => false
    else if b < 0xED then
      match rest with
      | c1 :: c2 :: rest2 =>
        decide (0x80 ≤ c1 ∧ c1 < 0xC0 ∧ 0x80 ≤ c2 ∧ c2 < 0xC0) && utf8Valid rest2
      | _ => false
    else if b = 0xED then
      match rest with
      | c1 :: c2 :: rest2 =>
        decide (0x80 ≤ c1 ∧ c1 < 0xA0 ∧ 0x80 ≤ c2 ∧ c2 < 0xC0) && utf8Valid rest2
      | _ => false
    else if b < 0xF0 then
      match rest with
      | c1 :: c2 :: rest2 =>
        decide (0x80 ≤ c1 ∧ c1 < 0xC0 ∧ 0x80 ≤ c2 ∧ c2 < 0xC0) && utf8Valid rest2
      | _ => false
    else if b = 0xF0 then
      match rest with
      | c1 :: c2 :: c3 :: rest3 =>
        decide (0x90 ≤ c1 ∧ c1 < 0xC0 ∧ 0x80 ≤ c2 ∧ c2 < 0xC0 ∧ 0x80 ≤ c3 ∧ c3 < 0xC0) &&
          utf8Valid rest3
      | _ => false
    else if b < 0xF4 then
      match rest with
      | c1 :: c2 :: c3 :: rest3 =>
        decide (0x80 ≤ c1 ∧ c1 < 0xC0 ∧ 0x80 ≤ c2 ∧ c2 < 0xC0 ∧ 0x80 ≤ c3 ∧ c3 < 0xC0) &&
          utf8Valid rest3
      | _ => false
    else if b = 0xF4 then
      match rest with
      | c1 :: c2 :: c3 :: rest3 =>
        decide (0x80 ≤ c1 ∧ c1 < 0x90 ∧ 0x80 ≤ c2 ∧ c2 < 0xC0 ∧ 0x80 ≤ c3 ∧ c3 < 0xC0) &&
          utf8Valid rest3
      | _ => false
    else false

mutual

/-- The codec's universal value type (spec §3 "Decoded Message Value"): the
tagged union decoded by `deserialize_any` with a universal-value visitor.
Strings are carried as their UTF-8 byte sequences; 32/64-bit float payloads
are carried as raw little-endian bit patterns (`Nat`), never interpreted. -/
inductive Value where
  | nil
  | bool (b : Bool)
  | i32 (x : Int)
  | i64 (x : Int)
  | f64 (bits : Nat)
  | str (bytes : List Nat)
  | u8Data (bytes : List Nat)
  | i32Data (xs : List Int)
  | i64Data (xs : List Int)
  | f64Data (bits : List Nat)
  | f32Data (bits : List Nat)
  | list (xs : ValueList)
  | map (xs : ValuePairs)
  deriving DecidableEq, Repr

/-- Ordered list of child values of a `Value.list`. -/
inductive ValueList where
  | nil
  | cons (hd : Value) (tl : ValueList)
  deriving DecidableEq, Repr

/-- Ordered key/value pairs of a `Value.map` (wire insertion order). -/
inductive ValuePairs where
  | nil
  | cons (key val : Value) (tl : ValuePairs)
  deriving DecidableEq, Repr

end

/-- Number of elements of a `ValueList`. -/
def ValueList.length : ValueList → Nat
  | .nil => 0
  | .cons _ tl => tl.length + 1

/-- Number of key/value pairs of a `ValuePairs`. -/
def ValuePairs.length : ValuePairs → Nat
  | .nil => 0
  | .cons _ _ tl => tl.length + 1

/-- Modelled from the spec: the encoder's smallest size prefix matching the
decoder's thresholds — sizes 0..253 inline in one byte, 254..65535 as marker
254 plus little-endian 16 bits, larger sizes as marker 255 plus little-endian
32 bits. -/
def encodeSize (n : Nat) : List Nat :=
  if n < 254 then [n]
  else if n < 65536 then 254 :: toLE n 2
  else 255 :: toLE n 4

/-- Modelled from the spec: padding bytes inserted before a homogeneous
numeric array's packed elements so that the decoder's cursor alignment
(`alignPos`) lands exactly at the first element. -/
def alignPad (pos s : Nat) : List Nat :=
  List.replicate (alignPos pos s - pos) 0

/-- Modelled from the spec: encoding of a homogeneous numeric array at
absolute buffer position `pos`: tag, element count with smallest size prefix,
alignment padding, then packed little-endian elements. -/
def encodePrim {α : Type} (pos tag s : Nat) (enc : α → List Nat) (xs : List α) : List Nat :=
  let hdr := tag :: encodeSize xs.length
  hdr ++ alignPad (pos + hdr.length) s ++ xs.flatMap enc

mutual

/-- Modelled from the spec: the exact inverse of the decoder, choosing the
smallest size-prefix width that fits (the repository has no encoder).  `pos`
is the absolute buffer position at which this value's bytes start — needed
because numeric-array alignment padding depends on it. -/
def encodeValue (pos : Nat) : Value → List Nat
  | .nil => [0]
  | .bool b => if b then [1] else [2]
  | .i32 x => 3 :: toLE (x.emod 4294967296).toNat 4
  | .i64 x => 4 :: toLE (x.emod 18446744073709551616).toNat 8
  | .f64 bits => 6 :: toLE bits 8
  | .str bs => 7 :: (encodeSize bs.length ++ bs)
  | .u8Data bs => 8 :: (encodeSize bs.length ++ bs)
  | .i32Data xs => encodePrim pos 9 4 (fun x => toLE (x.emod 4294967296).toNat 4) xs
  | .i64Data xs => encodePrim pos 10 8 (fun x => toLE (x.emod 18446744073709551616).toNat 8) xs
  | .f64Data xs => encodePrim pos 11 8 (fun b => toLE b 8) xs
  | .f32Data xs => encodePrim pos 14 4 (fun b => toLE b 4) xs
  | .list xs =>
    let hdr := 12 :: encodeSize xs.length
    hdr ++ encodeList (pos + hdr.length) xs
  | .map ps =>
    let hdr := 13 :: encodeSize ps.length
    hdr ++ encodePairs (pos + hdr.length) ps

/-- Modelled from the spec: element-wise encoding of a list body, threading
the absolute position. -/
def encodeList (pos : Nat) : ValueList → List Nat
  | .nil => []
  | .cons v tl =>
    let b := encodeValue pos v
    b ++ encodeList (pos + b.length) tl

/-- Modelled from the spec: encoding of a map body as alternating key/value
encodings, threading the absolute position. -/
def encodePairs (pos : Nat) : ValuePairs → List Nat
  | .nil => []
  | .cons k v tl =>
    let bk := encodeValue pos k
    let bv := encodeValue (pos + bk.length) v
    bk ++ bv ++ encodePairs (pos + bk.length + bv.length) tl

end

mutual

/-- Constructibility of a `Value` as a Rust value of the spec's universal
type: strings are valid UTF-8, raw bytes fit in `u8`, 32/64-bit integers are
in range, float bit patterns fit their width, and every size fits the 32-bit
size prefix. -/
def Value.wf : Value → Bool
  | .nil => true
  | .bool _ => true
  | .i32 x => decide (-2147483648 ≤ x ∧ x < 2147483648)
  | .i64 x => decide (-9223372036854775808 ≤ x ∧ x < 9223372036854775808)
  | .f64 bits => decide (bits < 18446744073709551616)
  | .str bs => decide (bs.length < 4294967296) && utf8Valid bs
  | .u8Data bs => decide (bs.length < 4294967296) && bs.all (fun b => decide (b < 256))
  | .i32Data xs => decide (xs.length < 4294967296) &&
      xs.all (fun x => decide (-2147483648 ≤ x ∧ x < 2147483648))
  | .i64Data xs => decide (xs.length < 4294967296) &&
      xs.all (fun x => decide (-9223372036854775808 ≤ x ∧ x < 9223372036854775808))
  | .f64Data xs => decide (xs.length < 4294967296) &&
      xs.all (fun b => decide (b < 18446744073709551616))
  | .f32Data xs => decide (xs.length < 4294967296) && xs.all (fun b => decide (b < 4294967296))
  | .list xs => decide (xs.length < 4294967296) && xs.wfList
  | .map ps => decide (ps.length < 4294967296) && ps.wfPairs

/-- Constructibility of every element of a `ValueList`. -/
def ValueList.wfList : ValueList → Bool
  | .nil => true
  | .cons v tl => v.wf && tl.wfList

/-- Constructibility of every key and value of a `ValuePairs`. -/
def ValuePairs.wfPairs : ValuePairs → Bool
  | .nil => true
  | .cons k v tl => k.wf && v.wf && tl.wfPairs

end

mutual

/-- Nesting depth of a `Value`; bounds the fuel the embedded decoder needs. -/
def Value.depth : Value → Nat
  | .list xs => xs.depthList + 1
  | .map ps => ps.depthPairs + 1
  | _ => 1

/-- Maximum nesting depth over a `ValueList`. -/
def ValueList.depthList : ValueList → Nat
  | .nil => 0
  | .cons v tl => max v.depth tl.depthList

/-- Maximum nesting depth over a `ValuePairs`. -/
def ValuePairs.depthPairs : ValuePairs → Nat
  | .nil => 0
  | .cons k v tl => max (max k.depth v.depth) tl.depthPairs

end

/-- `ListDeserializer` driving `visit_seq`: decode `n` consecutive values with
the given element decoder (the cursor-threaded `SeqAccess::next_element_seed`
loop). -/
def decodeSeq (elem : Nat → Except CodecError (Value × Nat)) :
    Nat → Nat → Except CodecError (ValueList × Nat)
  | 0, pos => .ok (.nil, pos)
  | n + 1, pos =>
    match elem pos with
    | .error e => .error e
    | .ok (v, pos1) =>
      match decodeSeq elem n pos1 with
      | .error e => .error e
      | .ok (vs, pos2) => .ok (.cons v vs, pos2)

/-- `ListDeserializer` driving `visit_map`: decode `n` key/value pairs, each
an alternating pair of values (`MapAccess::next_key_seed` /
`next_value_seed`). -/
def decodePairs (elem : Nat → Except CodecError (Value × Nat)) :
    Nat → Nat → Except CodecError (ValuePairs × Nat)
  | 0, pos => .ok (.nil, pos)
  | n + 1, pos =>
    match elem pos with
    | .error e => .error e
    | .ok (k, pos1) =>
      match elem pos1 with
      | .error e => .error e
      | .ok (v, pos2) =>
        match decodePairs elem n pos2 with
        | .error e => .error e
        | .ok (ps, pos3) => .ok (.cons k v ps, pos3)

/-- `PrimitiveListDeserializer`'s element loop: read `n` packed elements of
`s` bytes each, converting each chunk with `conv`
(`try_from_le_bytes(..).unwrap()`; the unwrap cannot fail because `read_data`
returns exactly `s` bytes, see `readData_length`).  The cursor has already
been aligned by the caller. -/
def readPrimSeq {α : Type} (input : List Nat) (s : Nat) (conv : List Nat → α) :
    Nat → Nat → Except CodecError (List α × Nat)
  | 0, pos => .ok ([], pos)
  | n + 1, pos =>
    match readData input pos s with
    | .error e => .error e
    | .ok (bs, pos1) =>
      match readPrimSeq input s conv n pos1 with
      | .error e => .error e
      | .ok (xs, pos2) => .ok (conv bs :: xs, pos2)

/-- The recursive-descent decoder for the universal value type:
`deserialize_any` dispatching on the peeked tag into the `deserialize_*`
methods of `message_codec.rs`, with a universal-value visitor (spec §3).  The
`fuel` parameter bounds recursion depth; `fromSliceValue` supplies more fuel
than any input can consume. -/
def decodeValue : Nat → List Nat → Nat → Except CodecError (Value × Nat)
  | 0, _, _ => .error .outOfFuel
  | fuel + 1, input, pos =>
    match peekFieldType input pos with
    | .error e => .error e
    | .ok t =>
      match t with
      | .nil =>
        -- deserialize_option: peek is Nil, so consume the tag and visit none
        match readFieldType input pos with
        | .error e => .error e
        | .ok (_, pos) => .ok (.nil, pos)
      | .true_ | .false_ =>
        -- deserialize_bool
        match readFieldType input pos with
        | .error e => .error e
        | .ok (.true_, pos) => .ok (.bool true, pos)
        | .ok (.false_, pos) => .ok (.bool false, pos)
        | .ok _ => .error .invalidFieldType
      | .int32 =>
        -- deserialize_i32
        match readFieldType input pos with
        | .error e => .error e
        | .ok (.int32, pos) =>
          match readBytes input pos 4 with
          | .error e => .error e
          | .ok (bs, pos) => .ok (.i32 (i32OfLE bs), pos)
        | .ok _ => .error .invalidFieldType
      | .int64 =>
        -- deserialize_i64
        match readFieldType input pos with
        | .error e => .error e
        | .ok (.int64, pos) =>
          match readBytes input pos 8 with
          | .error e => .error e
          | .ok (bs, pos) => .ok (.i64 (i64OfLE bs), pos)
        | .ok _ => .error .invalidFieldType
      | .float64 =>
        -- deserialize_f64
        match readFieldType input pos with
        | .error e => .error e
        | .ok (.float64, pos) =>
          match readBytes input pos 8 with
          | .error e => .error e
          | .ok (bs, pos) => .ok (.f64 (fromLE bs), pos)
        | .ok _ => .error .invalidFieldType
      | .intHex | .string =>
        -- deserialize_str (both IntHex and String tags are accepted)
        match readFieldType input pos with
        | .error e => .error e
        | .ok (.intHex, pos) | .ok (.string, pos) =>
          match readSize input pos with
          | .error e => .error e
          | .ok (len, pos) =>
            match readData input pos len with
            | .error e => .error e
            | .ok (bs, pos) =>
              if utf8Valid bs then .ok (.str bs, pos) else .error .utf8Error
        | .ok _ => .error .invalidFieldType
      | .uint8Data =>
        -- deserialize_bytes
        match readFieldType input pos with
        | .error e => .error e
        | .ok (.uint8Data, pos) =>
          match readSize input pos with
          | .error e => .error e
          | .ok (len, pos) =>
            match readData input pos len with
            | .error e => .error e
            | .ok (bs, pos) => .ok (.u8Data bs, pos)
        | .ok _ => .error .invalidFieldType
      | .int32Data =>
        -- deserialize_seq, Int32Data arm
        match readFieldType input pos with
        | .error e => .error e
        | .ok (_, pos) =>
          match readSize input pos with
          | .error e => .error e
          | .ok (n, pos) =>
            match readPrimSeq input 4 i32OfLE n (alignPos pos 4) with
            | .error e => .error e
            | .ok (xs, pos) => .ok (.i32Data xs, pos)
      | .int64Data =>
        -- deserialize_seq, Int64Data arm
        match readFieldType input pos with
        | .error e => .error e
        | .ok (_, pos) =>
          match readSize input pos with
          | .error e => .error e
          | .ok (n, pos) =>
            match readPrimSeq input 8 i64OfLE n (alignPos pos 8) with
            | .error e => .error e
            | .ok (xs, pos) => .ok (.i64Data xs, pos)
      | .float64Data =>
        -- deserialize_seq, Float64Data arm
        match readFieldType input pos with
        | .error e => .error e
        | .ok (_, pos) =>
          match readSize input pos with
          | .error e => .error e
          | .ok (n, pos) =>
            match readPrimSeq input 8 fromLE n (alignPos pos 8) with
            | .error e => .error e
            | .ok (xs, pos) => .ok (.f64Data xs, pos)
      | .float32Data =>
        -- deserialize_seq, Float32Data arm
        match readFieldType input pos with
        | .error e => .error e
        | .ok (_, pos) =>
          match readSize input pos with
          | .error e => .error e
          | .ok (n, pos) =>
            match readPrimSeq input 4 fromLE n (alignPos pos 4) with
            | .error e => .error e
            | .ok (xs, pos) => .ok (.f32Data xs, pos)
      | .list =>
        -- deserialize_seq, List arm
        match readFieldType input pos with
        | .error e => .error e
        | .ok (_, pos) =>
          match readSize input pos with
          | .error e => .error e
          | .ok (n, pos) =>
            match decodeSeq (decodeValue fuel input) n pos with
            | .error e => .error e
            | .ok (xs, pos) => .ok (.list xs, pos)
      | .map =>
        -- deserialize_map
        match readFieldType input pos with
        | .error e => .error e
        | .ok (_, pos) =>
          match readSize input pos with
          | .error e => .error e
          | .ok (n, pos) =>
            match decodePairs (decodeValue fuel input) n pos with
            | .error e => .error e
            | .ok (ps, pos) => .ok (.map ps, pos)

/-- `from_slice` instantiated at the universal value type: decode one value
from the start of the buffer and require the cursor to land exactly at the
end, otherwise `TrailingCharacters`. -/
def fromSliceValue (input : List Nat) : Except CodecError Value :=
  match decodeValue (input.length + 1) input 0 with
  | .error e => .error e
  | .ok (v, pos) => if input.length = pos then .ok v else .error .trailingCharacters

/-- `deserialize_u64`: reads an `Int64`-tagged value but narrows it through
`visitor.visit_u32(i64::try_into()?)`, so the result is the `u32` (widened by
the visitor); values outside `u32` range fail with `ValueOutOfRange`. -/
def deserializeU64 (input : List Nat) (pos : Nat) : Except CodecError (Nat × Nat) :=
  match readFieldType input pos with
  | .error e => .error e
  | .ok (.int64, pos) =>
    match readBytes input pos 8 with
    | .error e => .error e
    | .ok (bs, pos) =>
      let v := i64OfLE bs
      if v < 0 ∨ 4294967295 < v then .error .valueOutOfRange
      else .ok (v.toNat, pos)
  | .ok _ => .error .invalidFieldType

end MessageCodec

/-- `TextInputAction` (text_input.rs): the submit-action vocabulary attached
to the keyboard client. -/
inductive TextInputAction where
  | none_
  | unspecified
  | done
  | go
  | search
  | send
  | next
  | previous
  | continueAction
  | join
  | route
  | emergencyCall
  | newline
  deriving DecidableEq, Repr

/-- The claim-relevant fields of `TextEditingValue` (text_input.rs): the text
buffer as a sequence of Unicode scalar values and the optional selection
indices, counted in scalar values.  The indices are `u64` in the source
(hence `Nat`; the source's `val >= 0` guards are vacuous and correspond to
`Option.isSome` here).  The affinity/composing fields never change in
`key_event` and are omitted. -/
structure TextEditingValue where
  text : List Char
  selectionBase : Option Nat
  selectionExtent : Option Nat
  deriving DecidableEq, Repr

/-- The modifier state consumed by `Keyboard::key_event` (winit `Modifiers`):
the shift key and the platform action key, which per `action_key.rs` is
Control on non-Apple platforms (the Apple `cfg` branches are not compiled
there). -/
structure Modifiers where
  shift : Bool
  control : Bool
  deriving DecidableEq, Repr

/-- `ActionKey::action_key` for non-Apple targets: the Control key. -/
def Modifiers.actionKey (m : Modifiers) : Bool := m.control

/-- The logical keys distinguished by the `match event.logical_key` in
`Keyboard::key_event`; `other` covers every unlisted key (the `_ => ignore`
arm). -/
inductive LogicalKey where
  | arrowLeft
  | arrowRight
  | arrowUp
  | arrowDown
  | home
  | end_
  | backspace
  | delete
  | enter
  | tab
  | character (c : String)
  | other
  deriving DecidableEq, Repr

/-- A key event as consumed by `Keyboard::key_event`: pressed vs released and
the logical key.  The physical key and repeat flag select the engine key-event
kind but do not affect the editing state. -/
structure KeyEvent where
  pressed : Bool
  logicalKey : LogicalKey
  deriving DecidableEq, Repr

/-- `struct Keyboard` (keyboard.rs): the client handle, the current modifier
state, the editing state and the configured input action.  The clipboard
handle is passed explicitly to `keyEvent` instead of stored. -/
structure Keyboard where
  client : Option Nat
  modifiers : Modifiers
  editingState : TextEditingValue
  inputAction : TextInputAction
  deriving DecidableEq, Repr

/-- Outbound effects of `Keyboard::key_event`: the forwarded engine key event
(`FlutterEngineSendKeyEvent`), the two `flutter/textinput` platform messages
(`TextInputClient::UpdateEditingState` / `TextInputClient::PerformAction`,
sent via `FlutterEngineSendPlatformMessage`), and clipboard writes. -/
inductive OutboundMessage where
  | sendKeyEvent
  | updateEditingState (client : Nat) (state : TextEditingValue)
  | performAction (client : Nat) (action : TextInputAction)
  | setClipboard (text : List Char)
  deriving DecidableEq, Repr

/-- `true` exactly for the two `flutter/textinput` message kinds. -/
def OutboundMessage.isEditingOrAction : OutboundMessage → Bool
  | .updateEditingState _ _ => true
  | .performAction _ _ => true
  | _ => false

/-- `Keyboard::move_home`: selection base to 0 always; extent to 0 only when
shift is not held. -/
def moveHome (kb : Keyboard) : Keyboard :=
  let st := { kb.editingState with selectionBase := some 0 }
  let st := if !kb.modifiers.shift then { st with selectionExtent := some 0 } else st
  { kb with editingState := st }

/-- `Keyboard::move_end`: selection extent to the text length always; base to
the (new) extent only when shift is not held. -/
def moveEnd (kb : Keyboard) : Keyboard :=
  let len := kb.editingState.text.length
  let st := { kb.editingState with selectionExtent := some len }
  let st := if !kb.modifiers.shift then { st with selectionBase := st.selectionExtent } else st
  { kb with editingState := st }

/-- `Keyboard::insert_text`: replace the normalized selected range by `t` (or
append when the buffer is empty or the selection starts past its end), place
the base after the inserted text, and collapse the extent onto the base. -/
def insertText (kb : Keyboard) (t : List Char) : Keyboard :=
  let st := kb.editingState
  let len := st.text.length
  let base := st.selectionBase.getD 0
  let ext := st.selectionExtent.getD 0
  let s := min base ext
  let e := max base ext
  let st :=
    if 0 < len ∧ s < len then
      { st with
          text := st.text.take s ++ t ++ st.text.drop e
          selectionBase := some (s + t.length) }
    else
      { st with text := st.text ++ t, selectionBase := some (st.text ++ t).length }
  let st := { st with selectionExtent := st.selectionBase }
  { kb with editingState := st }

/-- `Keyboard::update_editing_state`: emit `UpdateEditingState` if and only if
a client is set. -/
def updateEditingStateMsgs (kb : Keyboard) : List OutboundMessage :=
  match kb.client with
  | some c => [.updateEditingState c kb.editingState]
  | none => []

/-- `Keyboard::send_action`: emit `PerformAction` if and only if a client is
set. -/
def sendActionMsgs (kb : Keyboard) (a : TextInputAction) : List OutboundMessage :=
  match kb.client with
  | some c => [.performAction c a]
  | none => []

/-- The `match event.logical_key` body of `Keyboard::key_event`, entered only
under the key-down-with-selection guard.  `len`/`s`/`e` are the length and
normalized selection computed before the match; `clipboard` is the result of
`Clipboard::get_text` for the paste arm (`none` = failure, silently
ignored). -/
def editStep (kb : Keyboard) (clipboard : Option (List Char)) (key : LogicalKey) :
    Keyboard × List OutboundMessage :=
  let st := kb.editingState
  let len := st.text.length
  let base := st.selectionBase.getD 0
  let ext := st.selectionExtent.getD 0
  let s := min base ext
  let e := max base ext
  match key with
  | .arrowLeft =>
    if 0 < s then
      if !kb.modifiers.shift ∧ s ≠ e then
        ({ kb with editingState := { st with selectionExtent := st.selectionBase } }, [])
      else
        let st1 := { st with selectionBase := some (s - 1) }
        let st2 := if !kb.modifiers.shift then { st1 with selectionExtent := st1.selectionBase }
          else st1
        ({ kb with editingState := st2 }, [])
    else
      if !kb.modifiers.shift ∧ s ≠ e then
        ({ kb with editingState := { st with selectionExtent := st.selectionBase } }, [])
      else (kb, [])
  | .arrowRight =>
    if e < len then
      if !kb.modifiers.shift ∧ s ≠ e then
        ({ kb with editingState := { st with selectionBase := st.selectionExtent } }, [])
      else
        let st1 := { st with selectionExtent := some (e + 1) }
        let st2 := if !kb.modifiers.shift then { st1 with selectionBase := st1.selectionExtent }
          else st1
        ({ kb with editingState := st2 }, [])
    else
      if !kb.modifiers.shift ∧ s ≠ e then
        ({ kb with editingState := { st with selectionBase := st.selectionExtent } }, [])
      else (kb, [])
  | .arrowUp => (moveHome kb, [])
  | .home => (moveHome kb, [])
  | .arrowDown => (moveEnd kb, [])
  | .end_ => (moveEnd kb, [])
  | .backspace =>
    if s = e then
      let st1 :=
        if 0 < s then
          { st with
              text := st.text.take (s - 1) ++ st.text.drop s
              selectionBase := some (s - 1) }
        else st
      ({ kb with editingState := { st1 with selectionExtent := st1.selectionBase } }, [])
    else
      ({ kb with editingState := { st with
          text := st.text.take s ++ st.text.drop e
          selectionExtent := st.selectionBase } }, [])
  | .delete =>
    if s = e then
      if s < len then
        ({ kb with editingState :=
          { st with text := st.text.take s ++ st.text.drop (s + 1) } }, [])
      else (kb, [])
    else
      ({ kb with editingState := { st with
          text := st.text.take s ++ st.text.drop e
          selectionExtent := st.selectionBase } }, [])
  | .enter => (kb, sendActionMsgs kb kb.inputAction)
  | .tab =>
    (kb, sendActionMsgs kb (if kb.modifiers.shift then .previous else .next))
  | .character c =>
    if c = "a" ∧ kb.modifiers.actionKey then
      ({ kb with editingState := { st with
          selectionBase := some 0
          selectionExtent := some len } }, [])
    else if c = "x" ∧ kb.modifiers.actionKey then
      if s ≠ e then
        ({ kb with editingState := { st with
            text := st.text.take s ++ st.text.drop e
            selectionExtent := st.selectionBase } },
          [.setClipboard ((st.text.drop s).take (e - s))])
      else (kb, [])
    else if c = "c" ∧ kb.modifiers.actionKey then
      if s ≠ e then (kb, [.setClipboard ((st.text.drop s).take (e - s))])
      else (kb, [])
    else if c = "v" ∧ kb.modifiers.actionKey then
      match clipboard with
      | some t => (insertText kb t, [])
      | none => (kb, [])
    else (kb, [])
  | .other => (kb, [])

/-- `Keyboard::key_event`.  `translated` is whether both key-map lookups
succeeded (untranslatable keys are dropped entirely).  When they do, the raw
key event is always forwarded to the engine; the editing state is mutated and
re-announced only for a key-down while both selection ends are set. -/
def keyEvent (kb : Keyboard) (clipboard : Option (List Char)) (translated : Bool)
    (ev : KeyEvent) : Keyboard × List OutboundMessage :=
  if !translated then (kb, [])
  else
    if ev.pressed ∧ kb.editingState.selectionBase.isSome ∧
        kb.editingState.selectionExtent.isSome then
      let r := editStep kb clipboard ev.logicalKey
      (r.1, OutboundMessage.sendKeyEvent :: (r.2 ++ updateEditingStateMsgs r.1))
    else (kb, [OutboundMessage.sendKeyEvent])

/-- The `TextInput` platform messages distinguished by the dispatcher inside
`platform_message_callback`; `other` stands for `Show`, `Hide` and any
unhandled variant. -/
inductive TextInputMsg where
  | setClient (id : Nat)
  | clearClient
  | setEditingState (state : TextEditingValue)
  | other
  deriving DecidableEq, Repr

/-- The host state touched by the platform-message closure in
`flutter_application.rs`: the keyboard client id and the editing state. -/
structure AppState where
  keyboardClient : Option Nat
  editingState : TextEditingValue
  deriving DecidableEq, Repr

/-- A call made by the closure into the engine. -/
inductive EngineCall where
  | sendPlatformMessageResponse (handle : Nat) (payload : List Nat)
  deriving DecidableEq, Repr

/-- The deferred unit enqueued by `platform_message_callback`
(`flutter_application.rs`), which runs on the UI thread.  `channel` is the
result of `CStr::to_str` on the channel name (`none` = invalid UTF-8);
`parsed` is the result of `serde_json::from_slice::<TextInput>` on the raw
payload (`none` = parse failure) — JSON parsing is an external library, so
its outcome is passed abstractly.  Every branch answers the response handle
with a null, zero-length payload. -/
def platformMessageTask (st : AppState) (channel : Option String)
    (parsed : Option TextInputMsg) (handle : Nat) : AppState × List EngineCall :=
  match channel with
  | some c =>
    if c = "flutter/textinput" then
      let st1 :=
        match parsed with
        | some (.setClient id) => { st with keyboardClient := some id }
        | some .clearClient => { st with keyboardClient := none }
        | some (.setEditingState s) => { st with editingState := s }
        | some .other => st
        | none => st
      (st1, [.sendPlatformMessageResponse handle []])
    else (st, [.sendPlatformMessageResponse handle []])
  | none => (st, [.sendPlatformMessageResponse handle []])

/-- One present-call layer (`FlutterLayer`): a backing-store placement
(identified by its backing-store record) or a platform-view placement.  The
f64 offset/size payloads are forwarded verbatim and play no role in the
ordering claim, so they are omitted here. -/
inductive LayerContent where
  | backingStore (storeId : Nat)
  | platformView (viewId : Int)
  deriving DecidableEq, Repr

/-- GPU and registry calls issued inside the single render pass of
`present_layers_callback`, in issue order. -/
inductive DrawCommand where
  | setPipeline
  | writeBuffer (layerIdx : Nat)
  | setBindGroup (slot : Nat) (storeId : Nat)
  | draw (storeId : Nat)
  | renderPlatformView (viewId : Int)
  deriving DecidableEq, Repr

/-- The loop body of `for (idx, layer) in layers.iter().enumerate()` in
`present_layers_callback`: a backing-store layer writes its uniform buffer,
binds its two bind groups and draws the 4-vertex strip; a platform-view layer
is forwarded to the platform-view registry. -/
def layerCommands (idx : Nat) : LayerContent → List DrawCommand
  | .backingStore sid =>
    [.writeBuffer idx, .setBindGroup 0 sid, .setBindGroup 1 sid, .draw sid]
  | .platformView vid => [.renderPlatformView vid]

/-- The enumerated layer walk, accumulating issued calls onto the
already-recorded render-pass prefix. -/
def presentLoop : Nat → List LayerContent → List DrawCommand → List DrawCommand
  | _, [], acc => acc
  | idx, l :: rest, acc => presentLoop (idx + 1) rest (acc ++ layerCommands idx l)

/-- The command trace of one `present_layers_callback` invocation: the fixed
pipeline is bound once, then the layers are walked in engine-given order
within the same render pass. -/
def presentTrace (layers : List LayerContent) : List DrawCommand :=
  presentLoop 0 layers [.setPipeline]

namespace MessageCodec

theorem toLE_length (n w : Nat) : (toLE n w).length = w := by
  induction w generalizing n with
  | zero => rfl
  | succ w ih => simp [toLE, ih]

theorem fromLE_toLE (n w : Nat) : fromLE (toLE n w) = n % 256 ^ w := by
  induction w generalizing n with
  | zero => simp [toLE, fromLE, Nat.mod_one]
  | succ w ih =>
    simp only [toLE, fromLE, ih, pow_succ]
    rw [mul_comm (256 ^ w) 256, Nat.mod_mul]
    omega

theorem fromLE_lt (bs : List Nat) : fromLE bs < 256 ^ bs.length := by
  induction bs with
  | nil => simp [fromLE]
  | cons b rest ih =>
    have hb := Nat.mod_lt b (show 0 < 256 by norm_num)
    simp only [fromLE, List.length_cons, pow_succ]
    calc b % 256 + 256 * fromLE rest ≤ 255 + 256 * fromLE rest := by omega
      _ < 256 * (fromLE rest + 1) := by omega
      _ ≤ 256 ^ rest.length * 256 := by
          rw [mul_comm (256 ^ rest.length) 256]
          exact Nat.mul_le_mul_left 256 (by omega)

theorem emod_two_case {x n : Int} (h1 : -n ≤ x) (h2 : x < n) (_hn : 0 < n) :
    x.emod n = x ∨ x.emod n = x + n := by
  rcases le_or_lt 0 x with hx | hx
  · left
    exact Int.emod_eq_of_lt hx h2
  · right
    have hshift := Int.add_mul_emod_self_left (a := x) (b := n) (c := 1)
    rw [mul_one] at hshift
    rw [show x.emod n = (x + n).emod n from hshift.symm]
    exact Int.emod_eq_of_lt (by omega) (by omega)

/-- Round-trip for the signed 32-bit embedding: encoding an in-range `i32` as
its unsigned 32-bit residue in little-endian bytes and reinterpreting yields
the value back. -/
theorem i32OfLE_toLE (x : Int) (h1 : -2147483648 ≤ x) (h2 : x < 2147483648) :
    i32OfLE (toLE (x.emod 4294967296).toNat 4) = x := by
  have hnn : 0 ≤ x.emod 4294967296 := Int.emod_nonneg x (by norm_num)
  have hlt : x.emod 4294967296 < 4294967296 := Int.emod_lt_of_pos x (by norm_num)
  have hcast : ((x.emod 4294967296).toNat : Int) = x.emod 4294967296 :=
    Int.toNat_of_nonneg hnn
  have hmod : (x.emod 4294967296).toNat % 4294967296 = (x.emod 4294967296).toNat := by
    apply Nat.mod_eq_of_lt
    omega
  have h4 : (256 : Nat) ^ 4 = 4294967296 := by norm_num
  simp only [i32OfLE, fromLE_toLE, h4, hmod]
  rcases emod_two_case (x := x) (n := 4294967296) (by omega) (by omega) (by omega) with hx | hx <;>
    rw [hx] <;> split <;> omega

/-- Round-trip for the signed 64-bit embedding. -/
theorem i64OfLE_toLE (x : Int) (h1 : -9223372036854775808 ≤ x)
    (h2 : x < 9223372036854775808) :
    i64OfLE (toLE (x.emod 18446744073709551616).toNat 8) = x := by
  have hnn : 0 ≤ x.emod 18446744073709551616 := Int.emod_nonneg x (by norm_num)
  have hlt : x.emod 18446744073709551616 < 18446744073709551616 :=
    Int.emod_lt_of_pos x (by norm_num)
  have hcast : ((x.emod 18446744073709551616).toNat : Int) = x.emod 18446744073709551616 :=
    Int.toNat_of_nonneg hnn
  have hmod : (x.emod 18446744073709551616).toNat % 18446744073709551616
      = (x.emod 18446744073709551616).toNat := by
    apply Nat.mod_eq_of_lt
    omega
  have h8 : (256 : Nat) ^ 8 = 18446744073709551616 := by norm_num
  simp only [i64OfLE, fromLE_toLE, h8, hmod]
  rcases emod_two_case (x := x) (n := 18446744073709551616) (by omega) (by omega) (by omega)
      with hx | hx <;>
    rw [hx] <;> split <;> omega

theorem drop_cons_lt {input rest : List Nat} {pos b : Nat}
    (h : input.drop pos = b :: rest) : pos < input.length := by
  by_contra hc
  rw [List.drop_eq_nil_of_le (by omega)] at h
  exact List.noConfusion h

theorem drop_append_le {input l rest : List Nat} {pos : Nat}
    (h : input.drop pos = l ++ rest) (hp : pos ≤ input.length) :
    pos + l.length ≤ input.length := by
  have hlen := congrArg List.length h
  rw [List.length_drop, List.length_append] at hlen
  omega

theorem drop_advance {input l rest : List Nat} {pos : Nat}
    (h : input.drop pos = l ++ rest) : input.drop (pos + l.length) = rest := by
  have h2 : (input.drop pos).drop l.length = rest := by
    rw [h]
    exact List.drop_left l rest
  rw [List.drop_drop] at h2
  exact h2

theorem readData_of_append {input bs rest : List Nat} {pos : Nat}
    (h : input.drop pos = bs ++ rest) (hp : pos ≤ input.length) :
    readData input pos bs.length = .ok (bs, pos + bs.length) := by
  have hle := drop_append_le h hp
  rw [readData, if_neg (by omega)]
  rw [h, List.take_left]

theorem readBytes_of_append {input bs rest : List Nat} {pos n : Nat}
    (h : input.drop pos = bs ++ rest) (hp : pos ≤ input.length) (hn : bs.length = n) :
    readBytes input pos n = .ok (bs, pos + n) := by
  subst hn
  have hle := drop_append_le h hp
  rw [readBytes, if_neg (by omega)]
  rw [h, List.take_left]

theorem readByte_of_cons {input rest : List Nat} {pos b : Nat}
    (h : input.drop pos = b :: rest) :
    readByte input pos = .ok (b, pos + 1) := by
  have h1 : input.drop pos = [b] ++ rest := h
  have hrb := readBytes_of_append (n := 1) h1 (Nat.le_of_lt (drop_cons_lt h)) rfl
  simp [readByte, hrb]

theorem readFieldType_of_cons {input rest : List Nat} {pos b : Nat}
    {t : FlutterStandardField} (h : input.drop pos = b :: rest)
    (ht : fieldTypeOfByte b = some t) :
    readFieldType input pos = .ok (t, pos + 1) := by
  simp [readFieldType, readByte_of_cons h, ht]

theorem peekFieldType_of_cons {input rest : List Nat} {pos b : Nat}
    {t : FlutterStandardField} (h : input.drop pos = b :: rest)
    (ht : fieldTypeOfByte b = some t) :
    peekFieldType input pos = .ok t := by
  have hlt := drop_cons_lt h
  rw [peekFieldType, if_neg (by omega), h]
  simp [ht]

theorem encodeSize_length_cases (n : Nat) :
    (encodeSize n).length = if n < 254 then 1 else if n < 65536 then 3 else 5 := by
  rw [encodeSize]
  split
  · rfl
  · split <;> simp [toLE_length]

theorem readSize_encodeSize {input rest : List Nat} {pos n : Nat}
    (h : input.drop pos = encodeSize n ++ rest) (_hp : pos ≤ input.length)
    (hn : n < 4294967296) :
    readSize input pos = .ok (n, pos + (encodeSize n).length) := by
  rw [encodeSize] at h ⊢
  by_cases h1 : n < 254
  · rw [if_pos h1] at h ⊢
    have hh : input.drop pos = n :: rest := h
    simp [readSize, readByte_of_cons hh, h1]
  · rw [if_neg h1] at h ⊢
    by_cases h2 : n < 65536
    · rw [if_pos h2] at h ⊢
      have hh : input.drop pos = 254 :: (toLE n 2 ++ rest) := by simpa using h
      have hadv : input.drop (pos + 1) = toLE n 2 ++ rest := by
        have := drop_advance (l := [254]) hh
        simpa using this
      have hrb := readBytes_of_append hadv (by have := drop_cons_lt hh; omega) (toLE_length n 2)
      have hmod : n % 256 ^ 2 = n := Nat.mod_eq_of_lt (by omega)
      simp [readSize, readByte_of_cons hh, hrb, fromLE_toLE, hmod, toLE_length]
      omega
    · rw [if_neg h2] at h ⊢
      have hh : input.drop pos = 255 :: (toLE n 4 ++ rest) := by simpa using h
      have hadv : input.drop (pos + 1) = toLE n 4 ++ rest := by
        have := drop_advance (l := [255]) hh
        simpa using this
      have hrb := readBytes_of_append hadv (by have := drop_cons_lt hh; omega) (toLE_length n 4)
      have hmod : n % 256 ^ 4 = n := Nat.mod_eq_of_lt (by norm_num; omega)
      simp [readSize, readByte_of_cons hh, hrb, fromLE_toLE, hmod, toLE_length]
      omega

theorem alignPos_ge (pos s : Nat) : pos ≤ alignPos pos s := by
  rw [alignPos]
  split <;> omega

theorem alignPad_length (pos s : Nat) : (alignPad pos s).length = alignPos pos s - pos := by
  rw [alignPad, List.length_replicate]

theorem flatMap_length_const {α : Type} (enc : α → List Nat) {s : Nat}
    (henc : ∀ x, (enc x).length = s) (xs : List α) :
    (xs.flatMap enc).length = s * xs.length := by
  induction xs with
  | nil => simp
  | cons x xs ih =>
    simp [List.flatMap_cons, henc x, ih, Nat.mul_succ]
    omega

theorem readPrimSeq_encode {α : Type} {input : List Nat} {s : Nat} {conv : List Nat → α}
    (enc : α → List Nat) (henc : ∀ x, (enc x).length = s)
    {xs : List α} (hconv : ∀ x ∈ xs, conv (enc x) = x) {rest : List Nat} {pos : Nat}
    (h : input.drop pos = xs.flatMap enc ++ rest) (hp : pos ≤ input.length) :
    readPrimSeq input s conv xs.length pos = .ok (xs, pos + s * xs.length) := by
  induction xs generalizing pos with
  | nil => simp [readPrimSeq]
  | cons x xs ih =>
    have hx : input.drop pos = enc x ++ (xs.flatMap enc ++ rest) := by
      simpa [List.flatMap_cons] using h
    have hrd : readData input pos s = .ok (enc x, pos + s) := by
      have := readData_of_append hx hp
      rwa [henc x] at this
    have hadv : input.drop (pos + s) = xs.flatMap enc ++ rest := by
      have := drop_advance hx
      rwa [henc x] at this
    have hple : pos + s ≤ input.length := by
      have := drop_append_le hx hp
      rw [henc x] at this
      exact this
    have harith : pos + s + s * xs.length = pos + s * (xs.length + 1) := by ring
    simp only [List.length_cons, readPrimSeq, hrd,
      ih (fun y hy => hconv y (List.mem_cons_of_mem x hy)) hadv hple,
      hconv x (List.mem_cons_self x xs), harith]

theorem decode_enc_nil {input rest : List Nat} {pos f : Nat}
    (h : input.drop pos = encodeValue pos .nil ++ rest) (_hp : pos ≤ input.length) :
    decodeValue (f + 1) input pos = .ok (.nil, pos + (encodeValue pos .nil).length) := by
  have hh : input.drop pos = 0 :: rest := by simpa [encodeValue] using h
  simp [decodeValue, peekFieldType_of_cons (t := .nil) hh (by decide),
    readFieldType_of_cons (t := .nil) hh (by decide), encodeValue]

theorem decode_enc_bool {input rest : List Nat} {pos f : Nat} {b : Bool}
    (h : input.drop pos = encodeValue pos (.bool b) ++ rest) (_hp : pos ≤ input.length) :
    decodeValue (f + 1) input pos = .ok (.bool b, pos + (encodeValue pos (.bool b)).length) := by
  cases b with
  | true =>
    have hh : input.drop pos = 1 :: rest := by simpa [encodeValue] using h
    simp [decodeValue, peekFieldType_of_cons (t := .true_) hh (by decide),
      readFieldType_of_cons (t := .true_) hh (by decide), encodeValue]
  | false =>
    have hh : input.drop pos = 2 :: rest := by simpa [encodeValue] using h
    simp [decodeValue, peekFieldType_of_cons (t := .false_) hh (by decide),
      readFieldType_of_cons (t := .false_) hh (by decide), encodeValue]

theorem decode_enc_i32 {input rest : List Nat} {pos f : Nat} {x : Int}
    (hx1 : -2147483648 ≤ x) (hx2 : x < 2147483648)
    (h : input.drop pos = encodeValue pos (.i32 x) ++ rest) (_hp : pos ≤ input.length) :
    decodeValue (f + 1) input pos = .ok (.i32 x, pos + (encodeValue pos (.i32 x)).length) := by
  have hh : input.drop pos
      = 3 :: (toLE (x.emod 4294967296).toNat 4 ++ rest) := by simpa [encodeValue] using h
  have hadv : input.drop (pos + 1) = toLE (x.emod 4294967296).toNat 4 ++ rest := by
    have := drop_advance (l := [3]) hh
    simpa using this
  have hrb := readBytes_of_append hadv (by have := drop_cons_lt hh; omega)
    (toLE_length (x.emod 4294967296).toNat 4)
  simp [decodeValue, peekFieldType_of_cons (t := .int32) hh (by decide),
    readFieldType_of_cons (t := .int32) hh (by decide), hrb, i32OfLE_toLE x hx1 hx2, encodeValue, toLE_length]

theorem decode_enc_i64 {input rest : List Nat} {pos f : Nat} {x : Int}
    (hx1 : -9223372036854775808 ≤ x) (hx2 : x < 9223372036854775808)
    (h : input.drop pos = encodeValue pos (.i64 x) ++ rest) (_hp : pos ≤ input.length) :
    decodeValue (f + 1) input pos = .ok (.i64 x, pos + (encodeValue pos (.i64 x)).length) := by
  have hh : input.drop pos
      = 4 :: (toLE (x.emod 18446744073709551616).toNat 8 ++ rest) := by
    simpa [encodeValue] using h
  have hadv : input.drop (pos + 1) = toLE (x.emod 18446744073709551616).toNat 8 ++ rest := by
    have := drop_advance (l := [4]) hh
    simpa using this
  have hrb := readBytes_of_append hadv (by have := drop_cons_lt hh; omega)
    (toLE_length (x.emod 18446744073709551616).toNat 8)
  simp [decodeValue, peekFieldType_of_cons (t := .int64) hh (by decide),
    readFieldType_of_cons (t := .int64) hh (by decide), hrb, i64OfLE_toLE x hx1 hx2, encodeValue, toLE_length]

theorem decode_enc_f64 {input rest : List Nat} {pos f : Nat} {bits : Nat}
    (hb : bits < 18446744073709551616)
    (h : input.drop pos = encodeValue pos (.f64 bits) ++ rest) (_hp : pos ≤ input.length) :
    decodeValue (f + 1) input pos = .ok (.f64 bits, pos + (encodeValue pos (.f64 bits)).length) := by
  have hh : input.drop pos = 6 :: (toLE bits 8 ++ rest) := by simpa [encodeValue] using h
  have hadv : input.drop (pos + 1) = toLE bits 8 ++ rest := by
    have := drop_advance (l := [6]) hh
    simpa using this
  have hrb := readBytes_of_append hadv (by have := drop_cons_lt hh; omega) (toLE_length bits 8)
  have hmod : bits % 256 ^ 8 = bits := Nat.mod_eq_of_lt (by norm_num; omega)
  simp [decodeValue, peekFieldType_of_cons (t := .float64) hh (by decide),
    readFieldType_of_cons (t := .float64) hh (by decide), hrb, fromLE_toLE, hmod, encodeValue, toLE_length]
  all_goals omega

theorem decode_enc_str {input rest : List Nat} {pos f : Nat} {bs : List Nat}
    (hlen : bs.length < 4294967296) (hutf : utf8Valid bs = true)
    (h : input.drop pos = encodeValue pos (.str bs) ++ rest) (_hp : pos ≤ input.length) :
    decodeValue (f + 1) input pos = .ok (.str bs, pos + (encodeValue pos (.str bs)).length) := by
  have hh : input.drop pos = 7 :: (encodeSize bs.length ++ (bs ++ rest)) := by
    simpa [encodeValue] using h
  have hadv1 : input.drop (pos + 1) = encodeSize bs.length ++ (bs ++ rest) := by
    have := drop_advance (l := [7]) hh
    simpa using this
  have hp1 : pos + 1 ≤ input.length := drop_cons_lt hh
  have hrs := readSize_encodeSize hadv1 hp1 hlen
  have hadv2 : input.drop (pos + 1 + (encodeSize bs.length).length) = bs ++ rest :=
    drop_advance hadv1
  have hp2 : pos + 1 + (encodeSize bs.length).length ≤ input.length :=
    drop_append_le hadv1 hp1
  have hrd := readData_of_append hadv2 hp2
  simp only [decodeValue, peekFieldType_of_cons (t := .string) hh (by decide),
    readFieldType_of_cons (t := .string) hh (by decide), hrs, hrd, hutf, if_true, encodeValue]
  simp [List.length_append]
  omega

theorem decode_enc_u8Data {input rest : List Nat} {pos f : Nat} {bs : List Nat}
    (hlen : bs.length < 4294967296)
    (h : input.drop pos = encodeValue pos (.u8Data bs) ++ rest) (_hp : pos ≤ input.length) :
    decodeValue (f + 1) input pos
      = .ok (.u8Data bs, pos + (encodeValue pos (.u8Data bs)).length) := by
  have hh : input.drop pos = 8 :: (encodeSize bs.length ++ (bs ++ rest)) := by
    simpa [encodeValue] using h
  have hadv1 : input.drop (pos + 1) = encodeSize bs.length ++ (bs ++ rest) := by
    have := drop_advance (l := [8]) hh
    simpa using this
  have hp1 : pos + 1 ≤ input.length := drop_cons_lt hh
  have hrs := readSize_encodeSize hadv1 hp1 hlen
  have hadv2 : input.drop (pos + 1 + (encodeSize bs.length).length) = bs ++ rest :=
    drop_advance hadv1
  have hp2 : pos + 1 + (encodeSize bs.length).length ≤ input.length :=
    drop_append_le hadv1 hp1
  have hrd := readData_of_append hadv2 hp2
  simp only [decodeValue, peekFieldType_of_cons (t := .uint8Data) hh (by decide),
    readFieldType_of_cons (t := .uint8Data) hh (by decide), hrs, hrd, encodeValue]
  simp [List.length_append]
  omega

theorem decode_enc_i32Data {input rest : List Nat} {pos f : Nat} {xs : List Int}
    (hlen : xs.length < 4294967296)
    (hel : ∀ x ∈ xs, -2147483648 ≤ x ∧ x < 2147483648)
    (h : input.drop pos = encodeValue pos (.i32Data xs) ++ rest) (_hp : pos ≤ input.length) :
    decodeValue (f + 1) input pos
      = .ok (.i32Data xs, pos + (encodeValue pos (.i32Data xs)).length) := by
  have heq : pos + ((encodeSize xs.length).length + 1)
      = pos + 1 + (encodeSize xs.length).length := by omega
  have hh : input.drop pos = 9 :: (encodeSize xs.length ++
      (alignPad (pos + 1 + (encodeSize xs.length).length) 4 ++
        (xs.flatMap (fun (x : Int) => toLE (x.emod 4294967296).toNat 4) ++ rest))) := by
    rw [← heq]
    simpa [encodeValue, encodePrim, List.append_assoc] using h
  have hp1 : pos + 1 ≤ input.length := drop_cons_lt hh
  have hadv1 := drop_advance (l := [9]) hh
  simp only [List.length_cons, List.length_nil, Nat.zero_add] at hadv1
  have hrs := readSize_encodeSize hadv1 hp1 hlen
  have hadv2 := drop_advance hadv1
  have hp2 : pos + 1 + (encodeSize xs.length).length ≤ input.length :=
    drop_append_le hadv1 hp1
  have halign : pos + 1 + (encodeSize xs.length).length +
      (alignPad (pos + 1 + (encodeSize xs.length).length) 4).length
      = alignPos (pos + 1 + (encodeSize xs.length).length) 4 := by
    rw [alignPad_length]
    have := alignPos_ge (pos + 1 + (encodeSize xs.length).length) 4
    omega
  have hadv3 := drop_advance hadv2
  rw [halign] at hadv3
  have hp3 : alignPos (pos + 1 + (encodeSize xs.length).length) 4 ≤ input.length := by
    have := drop_append_le hadv2 hp2
    omega
  have hconv : ∀ x ∈ xs, i32OfLE (toLE (x.emod 4294967296).toNat 4) = x := by
    intro x hx
    exact i32OfLE_toLE x (hel x hx).1 (hel x hx).2
  have hprim := readPrimSeq_encode (fun (x : Int) => toLE (x.emod 4294967296).toNat 4)
    (fun (x : Int) => toLE_length (x.emod 4294967296).toNat 4) hconv hadv3 hp3
  have hflen := flatMap_length_const (fun (x : Int) => toLE (x.emod 4294967296).toNat 4)
    (fun (x : Int) => toLE_length (x.emod 4294967296).toNat 4) xs
  have hlen2 : (encodeValue pos (.i32Data xs)).length
      = ((encodeSize xs.length).length + 1) +
        (alignPos (pos + 1 + (encodeSize xs.length).length) 4
          - (pos + 1 + (encodeSize xs.length).length)) + 4 * xs.length := by
    rw [show (encodeValue pos (Value.i32Data xs))
        = encodePrim pos 9 4 (fun (x : Int) => toLE (x.emod 4294967296).toNat 4) xs from by
      simp [encodeValue]]
    rw [encodePrim]
    simp only [List.length_append, List.length_cons, alignPad_length, hflen]
    rw [heq]
  have hfinal : alignPos (pos + 1 + (encodeSize xs.length).length) 4 + 4 * xs.length
      = pos + (encodeValue pos (.i32Data xs)).length := by
    rw [hlen2]
    have := alignPos_ge (pos + 1 + (encodeSize xs.length).length) 4
    omega
  rw [← hfinal]
  simp only [decodeValue, peekFieldType_of_cons (t := .int32Data) hh (by decide),
    readFieldType_of_cons (t := .int32Data) hh (by decide), hrs, hprim]

theorem decode_enc_i64Data {input rest : List Nat} {pos f : Nat} {xs : List Int}
    (hlen : xs.length < 4294967296)
    (hel : ∀ x ∈ xs, -9223372036854775808 ≤ x ∧ x < 9223372036854775808)
    (h : input.drop pos = encodeValue pos (.i64Data xs) ++ rest) (_hp : pos ≤ input.length) :
    decodeValue (f + 1) input pos
      = .ok (.i64Data xs, pos + (encodeValue pos (.i64Data xs)).length) := by
  have heq : pos + ((encodeSize xs.length).length + 1)
      = pos + 1 + (encodeSize xs.length).length := by omega
  have hh : input.drop pos = 10 :: (encodeSize xs.length ++
      (alignPad (pos + 1 + (encodeSize xs.length).length) 8 ++
        (xs.flatMap (fun (x : Int) => toLE (x.emod 18446744073709551616).toNat 8) ++ rest))) := by
    rw [← heq]
    simpa [encodeValue, encodePrim, List.append_assoc] using h
  have hp1 : pos + 1 ≤ input.length := drop_cons_lt hh
  have hadv1 := drop_advance (l := [10]) hh
  simp only [List.length_cons, List.length_nil, Nat.zero_add] at hadv1
  have hrs := readSize_encodeSize hadv1 hp1 hlen
  have hadv2 := drop_advance hadv1
  have hp2 : pos + 1 + (encodeSize xs.length).length ≤ input.length :=
    drop_append_le hadv1 hp1
  have halign : pos + 1 + (encodeSize xs.length).length +
      (alignPad (pos + 1 + (encodeSize xs.length).length) 8).length
      = alignPos (pos + 1 + (encodeSize xs.length).length) 8 := by
    rw [alignPad_length]
    have := alignPos_ge (pos + 1 + (encodeSize xs.length).length) 8
    omega
  have hadv3 := drop_advance hadv2
  rw [halign] at hadv3
  have hp3 : alignPos (pos + 1 + (encodeSize xs.length).length) 8 ≤ input.length := by
    have := drop_append_le hadv2 hp2
    omega
  have hconv : ∀ x ∈ xs, i64OfLE (toLE (x.emod 18446744073709551616).toNat 8) = x := by
    intro x hx
    exact i64OfLE_toLE x (hel x hx).1 (hel x hx).2
  have hprim := readPrimSeq_encode (fun (x : Int) => toLE (x.emod 18446744073709551616).toNat 8)
    (fun (x : Int) => toLE_length (x.emod 18446744073709551616).toNat 8) hconv hadv3 hp3
  have hflen := flatMap_length_const (fun (x : Int) => toLE (x.emod 18446744073709551616).toNat 8)
    (fun (x : Int) => toLE_length (x.emod 18446744073709551616).toNat 8) xs
  have hlen2 : (encodeValue pos (.i64Data xs)).length
      = ((encodeSize xs.length).length + 1) +
        (alignPos (pos + 1 + (encodeSize xs.length).length) 8
          - (pos + 1 + (encodeSize xs.length).length)) + 8 * xs.length := by
    rw [show (encodeValue pos (Value.i64Data xs))
        = encodePrim pos 10 8 (fun (x : Int) => toLE (x.emod 18446744073709551616).toNat 8) xs from by
      simp [encodeValue]]
    rw [encodePrim]
    simp only [List.length_append, List.length_cons, alignPad_length, hflen]
    rw [heq]
  have hfinal : alignPos (pos + 1 + (encodeSize xs.length).length) 8 + 8 * xs.length
      = pos + (encodeValue pos (.i64Data xs)).length := by
    rw [hlen2]
    have := alignPos_ge (pos + 1 + (encodeSize xs.length).length) 8
    omega
  rw [← hfinal]
  simp only [decodeValue, peekFieldType_of_cons (t := .int64Data) hh (by decide),
    readFieldType_of_cons (t := .int64Data) hh (by decide), hrs, hprim]

theorem decode_enc_f64Data {input rest : List Nat} {pos f : Nat} {xs : List Nat}
    (hlen : xs.length < 4294967296)
    (hel : ∀ x ∈ xs, x < 18446744073709551616)
    (h : input.drop pos = encodeValue pos (.f64Data xs) ++ rest) (_hp : pos ≤ input.length) :
    decodeValue (f + 1) input pos
      = .ok (.f64Data xs, pos + (encodeValue pos (.f64Data xs)).length) := by
  have heq : pos + ((encodeSize xs.length).length + 1)
      = pos + 1 + (encodeSize xs.length).length := by omega
  have hh : input.drop pos = 11 :: (encodeSize xs.length ++
      (alignPad (pos + 1 + (encodeSize xs.length).length) 8 ++
        (xs.flatMap (fun (x : Nat) => toLE x 8) ++ rest))) := by
    rw [← heq]
    simpa [encodeValue, encodePrim, List.append_assoc] using h
  have hp1 : pos + 1 ≤ input.length := drop_cons_lt hh
  have hadv1 := drop_advance (l := [11]) hh
  simp only [List.length_cons, List.length_nil, Nat.zero_add] at hadv1
  have hrs := readSize_encodeSize hadv1 hp1 hlen
  have hadv2 := drop_advance hadv1
  have hp2 : pos + 1 + (encodeSize xs.length).length ≤ input.length :=
    drop_append_le hadv1 hp1
  have halign : pos + 1 + (encodeSize xs.length).length +
      (alignPad (pos + 1 + (encodeSize xs.length).length) 8).length
      = alignPos (pos + 1 + (encodeSize xs.length).length) 8 := by
    rw [alignPad_length]
    have := alignPos_ge (pos + 1 + (encodeSize xs.length).length) 8
    omega
  have hadv3 := drop_advance hadv2
  rw [halign] at hadv3
  have hp3 : alignPos (pos + 1 + (encodeSize xs.length).length) 8 ≤ input.length := by
    have := drop_append_le hadv2 hp2
    omega
  have hconv : ∀ x ∈ xs, fromLE (toLE x 8) = x := by
    intro x hx
    rw [fromLE_toLE]
    exact Nat.mod_eq_of_lt (by have := hel x hx; norm_num; omega)
  have hprim := readPrimSeq_encode (fun (x : Nat) => toLE x 8)
    (fun (x : Nat) => toLE_length x 8) hconv hadv3 hp3
  have hflen := flatMap_length_const (fun (x : Nat) => toLE x 8)
    (fun (x : Nat) => toLE_length x 8) xs
  have hlen2 : (encodeValue pos (.f64Data xs)).length
      = ((encodeSize xs.length).length + 1) +
        (alignPos (pos + 1 + (encodeSize xs.length).length) 8
          - (pos + 1 + (encodeSize xs.length).length)) + 8 * xs.length := by
    rw [show (encodeValue pos (Value.f64Data xs))
        = encodePrim pos 11 8 (fun (x : Nat) => toLE x 8) xs from by
      simp [encodeValue]]
    rw [encodePrim]
    simp only [List.length_append, List.length_cons, alignPad_length, hflen]
    rw [heq]
  have hfinal : alignPos (pos + 1 + (encodeSize xs.length).length) 8 + 8 * xs.length
      = pos + (encodeValue pos (.f64Data xs)).length := by
    rw [hlen2]
    have := alignPos_ge (pos + 1 + (encodeSize xs.length).length) 8
    omega
  rw [← hfinal]
  simp only [decodeValue, peekFieldType_of_cons (t := .float64Data) hh (by decide),
    readFieldType_of_cons (t := .float64Data) hh (by decide), hrs, hprim]

theorem decode_enc_f32Data {input rest : List Nat} {pos f : Nat} {xs : List Nat}
    (hlen : xs.length < 4294967296)
    (hel : ∀ x ∈ xs, x < 4294967296)
    (h : input.drop pos = encodeValue pos (.f32Data xs) ++ rest) (_hp : pos ≤ input.length) :
    decodeValue (f + 1) input pos
      = .ok (.f32Data xs, pos + (encodeValue pos (.f32Data xs)).length) := by
  have heq : pos + ((encodeSize xs.length).length + 1)
      = pos + 1 + (encodeSize xs.length).length := by omega
  have hh : input.drop pos = 14 :: (encodeSize xs.length ++
      (alignPad (pos + 1 + (encodeSize xs.length).length) 4 ++
        (xs.flatMap (fun (x : Nat) => toLE x 4) ++ rest))) := by
    rw [← heq]
    simpa [encodeValue, encodePrim, List.append_assoc] using h
  have hp1 : pos + 1 ≤ input.length := drop_cons_lt hh
  have hadv1 := drop_advance (l := [14]) hh
  simp only [List.length_cons, List.length_nil, Nat.zero_add] at hadv1
  have hrs := readSize_encodeSize hadv1 hp1 hlen
  have hadv2 := drop_advance hadv1
  have hp2 : pos + 1 + (encodeSize xs.length).length ≤ input.length :=
    drop_append_le hadv1 hp1
  have halign : pos + 1 + (encodeSize xs.length).length +
      (alignPad (pos + 1 + (encodeSize xs.length).length) 4).length
      = alignPos (pos + 1 + (encodeSize xs.length).length) 4 := by
    rw [alignPad_length]
    have := alignPos_ge (pos + 1 + (encodeSize xs.length).length) 4
    omega
  have hadv3 := drop_advance hadv2
  rw [halign] at hadv3
  have hp3 : alignPos (pos + 1 + (encodeSize xs.length).length) 4 ≤ input.length := by
    have := drop_append_le hadv2 hp2
    omega
  have hconv : ∀ x ∈ xs, fromLE (toLE x 4) = x := by
    intro x hx
    rw [fromLE_toLE]
    exact Nat.mod_eq_of_lt (by have := hel x hx; norm_num; omega)
  have hprim := readPrimSeq_encode (fun (x : Nat) => toLE x 4)
    (fun (x : Nat) => toLE_length x 4) hconv hadv3 hp3
  have hflen := flatMap_length_const (fun (x : Nat) => toLE x 4)
    (fun (x : Nat) => toLE_length x 4) xs
  have hlen2 : (encodeValue pos (.f32Data xs)).length
      = ((encodeSize xs.length).length + 1) +
        (alignPos (pos + 1 + (encodeSize xs.length).length) 4
          - (pos + 1 + (encodeSize xs.length).length)) + 4 * xs.length := by
    rw [show (encodeValue pos (Value.f32Data xs))
        = encodePrim pos 14 4 (fun (x : Nat) => toLE x 4) xs from by
      simp [encodeValue]]
    rw [encodePrim]
    simp only [List.length_append, List.length_cons, alignPad_length, hflen]
    rw [heq]
  have hfinal : alignPos (pos + 1 + (encodeSize xs.length).length) 4 + 4 * xs.length
      = pos + (encodeValue pos (.f32Data xs)).length := by
    rw [hlen2]
    have := alignPos_ge (pos + 1 + (encodeSize xs.length).length) 4
    omega
  rw [← hfinal]
  simp only [decodeValue, peekFieldType_of_cons (t := .float32Data) hh (by decide),
    readFieldType_of_cons (t := .float32Data) hh (by decide), hrs, hprim]

theorem Value.depth_pos (v : Value) : 1 ≤ v.depth := by
  cases v <;> simp [Value.depth]

mutual

theorem decodeValue_enc (v : Value) (input rest : List Nat) (pos fuel : Nat)
    (hw : v.wf = true)
    (h : input.drop pos = encodeValue pos v ++ rest)
    (hp : pos ≤ input.length)
    (hf : v.depth ≤ fuel) :
    decodeValue fuel input pos = .ok (v, pos + (encodeValue pos v).length) := by
  obtain ⟨f, rfl⟩ : ∃ f, fuel = f + 1 := ⟨fuel - 1, by have := v.depth_pos; omega⟩
  cases v with
  | nil => exact decode_enc_nil h hp
  | bool b => exact decode_enc_bool h hp
  | i32 x =>
    simp only [Value.wf, decide_eq_true_eq] at hw
    exact decode_enc_i32 hw.1 hw.2 h hp
  | i64 x =>
    simp only [Value.wf, decide_eq_true_eq] at hw
    exact decode_enc_i64 hw.1 hw.2 h hp
  | f64 bits =>
    simp only [Value.wf, decide_eq_true_eq] at hw
    exact decode_enc_f64 hw h hp
  | str bs =>
    simp only [Value.wf, Bool.and_eq_true, decide_eq_true_eq] at hw
    exact decode_enc_str hw.1 hw.2 h hp
  | u8Data bs =>
    simp only [Value.wf, Bool.and_eq_true, decide_eq_true_eq] at hw
    exact decode_enc_u8Data hw.1 h hp
  | i32Data xs =>
    simp only [Value.wf, Bool.and_eq_true, List.all_eq_true, decide_eq_true_eq] at hw
    exact decode_enc_i32Data hw.1 hw.2 h hp
  | i64Data xs =>
    simp only [Value.wf, Bool.and_eq_true, List.all_eq_true, decide_eq_true_eq] at hw
    exact decode_enc_i64Data hw.1 hw.2 h hp
  | f64Data xs =>
    simp only [Value.wf, Bool.and_eq_true, List.all_eq_true, decide_eq_true_eq] at hw
    exact decode_enc_f64Data hw.1 hw.2 h hp
  | f32Data xs =>
    simp only [Value.wf, Bool.and_eq_true, List.all_eq_true, decide_eq_true_eq] at hw
    exact decode_enc_f32Data hw.1 hw.2 h hp
  | list xs =>
    simp only [Value.wf, Bool.and_eq_true, decide_eq_true_eq] at hw
    have hfs : xs.depthList ≤ f := by
      simp only [Value.depth] at hf
      omega
    have heq : pos + ((encodeSize xs.length).length + 1)
        = pos + 1 + (encodeSize xs.length).length := by omega
    have hh : input.drop pos = 12 :: (encodeSize xs.length ++
        (encodeList (pos + 1 + (encodeSize xs.length).length) xs ++ rest)) := by
      rw [← heq]
      simpa [encodeValue, List.append_assoc] using h
    have hp1 : pos + 1 ≤ input.length := drop_cons_lt hh
    have hadv1 := drop_advance (l := [12]) hh
    simp only [List.length_cons, List.length_nil, Nat.zero_add] at hadv1
    have hrs := readSize_encodeSize hadv1 hp1 hw.1
    have hadv2 := drop_advance hadv1
    have hp2 : pos + 1 + (encodeSize xs.length).length ≤ input.length :=
      drop_append_le hadv1 hp1
    have hseq := decodeSeq_encList xs input rest
      (pos + 1 + (encodeSize xs.length).length) f hw.2 hadv2 hp2 hfs
    have hlenc : (encodeValue pos (Value.list xs)).length
        = ((encodeSize xs.length).length + 1) +
          (encodeList (pos + 1 + (encodeSize xs.length).length) xs).length := by
      rw [← heq]
      simp only [encodeValue, List.length_cons, List.length_append]
    have hfin : pos + 1 + (encodeSize xs.length).length +
        (encodeList (pos + 1 + (encodeSize xs.length).length) xs).length
        = pos + (encodeValue pos (Value.list xs)).length := by
      rw [hlenc]
      omega
    rw [← hfin]
    simp only [decodeValue, peekFieldType_of_cons (t := .list) hh (by decide),
      readFieldType_of_cons (t := .list) hh (by decide), hrs, hseq]
  | map ps =>
    simp only [Value.wf, Bool.and_eq_true, decide_eq_true_eq] at hw
    have hfs : ps.depthPairs ≤ f := by
      simp only [Value.depth] at hf
      omega
    have heq : pos + ((encodeSize ps.length).length + 1)
        = pos + 1 + (encodeSize ps.length).length := by omega
    have hh : input.drop pos = 13 :: (encodeSize ps.length ++
        (encodePairs (pos + 1 + (encodeSize ps.length).length) ps ++ rest)) := by
      rw [← heq]
      simpa [encodeValue, List.append_assoc] using h
    have hp1 : pos + 1 ≤ input.length := drop_cons_lt hh
    have hadv1 := drop_advance (l := [13]) hh
    simp only [List.length_cons, List.length_nil, Nat.zero_add] at hadv1
    have hrs := readSize_encodeSize hadv1 hp1 hw.1
    have hadv2 := drop_advance hadv1
    have hp2 : pos + 1 + (encodeSize ps.length).length ≤ input.length :=
      drop_append_le hadv1 hp1
    have hseq := decodePairs_encPairs ps input rest
      (pos + 1 + (encodeSize ps.length).length) f hw.2 hadv2 hp2 hfs
    have hlenc : (encodeValue pos (Value.map ps)).length
        = ((encodeSize ps.length).length + 1) +
          (encodePairs (pos + 1 + (encodeSize ps.length).length) ps).length := by
      rw [← heq]
      simp only [encodeValue, List.length_cons, List.length_append]
    have hfin : pos + 1 + (encodeSize ps.length).length +
        (encodePairs (pos + 1 + (encodeSize ps.length).length) ps).length
        = pos + (encodeValue pos (Value.map ps)).length := by
      rw [hlenc]
      omega
    rw [← hfin]
    simp only [decodeValue, peekFieldType_of_cons (t := .map) hh (by decide),
      readFieldType_of_cons (t := .map) hh (by decide), hrs, hseq]

theorem decodeSeq_encList (xs : ValueList) (input rest : List Nat) (pos fuel : Nat)
    (hw : xs.wfList = true)
    (h : input.drop pos = encodeList pos xs ++ rest)
    (hp : pos ≤ input.length)
    (hf : xs.depthList ≤ fuel) :
    decodeSeq (decodeValue fuel input) xs.length pos
      = .ok (xs, pos + (encodeList pos xs).length) := by
  cases xs with
  | nil => simp [decodeSeq, ValueList.length, encodeList]
  | cons v tl =>
    simp only [ValueList.wfList, Bool.and_eq_true] at hw
    simp only [ValueList.depthList, Nat.max_le] at hf
    have h1 : input.drop pos = encodeValue pos v ++
        (encodeList (pos + (encodeValue pos v).length) tl ++ rest) := by
      simpa [encodeList, List.append_assoc] using h
    have hv := decodeValue_enc v input
      (encodeList (pos + (encodeValue pos v).length) tl ++ rest) pos fuel hw.1 h1 hp hf.1
    have hadv := drop_advance h1
    have hp' := drop_append_le h1 hp
    have htl := decodeSeq_encList tl input rest
      (pos + (encodeValue pos v).length) fuel hw.2 hadv hp' hf.2
    have hfin : pos + (encodeValue pos v).length +
        (encodeList (pos + (encodeValue pos v).length) tl).length
        = pos + (encodeList pos (ValueList.cons v tl)).length := by
      simp only [encodeList, List.length_append]
      omega
    rw [← hfin]
    simp only [ValueList.length, decodeSeq, hv, htl]

theorem decodePairs_encPairs (ps : ValuePairs) (input rest : List Nat) (pos fuel : Nat)
    (hw : ps.wfPairs = true)
    (h : input.drop pos = encodePairs pos ps ++ rest)
    (hp : pos ≤ input.length)
    (hf : ps.depthPairs ≤ fuel) :
    decodePairs (decodeValue fuel input) ps.length pos
      = .ok (ps, pos + (encodePairs pos ps).length) := by
  cases ps with
  | nil => simp [decodePairs, ValuePairs.length, encodePairs]
  | cons k v tl =>
    simp only [ValuePairs.wfPairs, Bool.and_eq_true] at hw
    simp only [ValuePairs.depthPairs, Nat.max_le] at hf
    have h1 : input.drop pos = encodeValue pos k ++
        (encodeValue (pos + (encodeValue pos k).length) v ++
          (encodePairs (pos + (encodeValue pos k).length +
            (encodeValue (pos + (encodeValue pos k).length) v).length) tl ++ rest)) := by
      simpa [encodePairs, List.append_assoc] using h
    have hk := decodeValue_enc k input _ pos fuel hw.1.1 h1 hp hf.1.1
    have hadv1 := drop_advance h1
    have hpk := drop_append_le h1 hp
    have hv := decodeValue_enc v input _ (pos + (encodeValue pos k).length) fuel
      hw.1.2 hadv1 hpk hf.1.2
    have hadv2 := drop_advance hadv1
    have hpv := drop_append_le hadv1 hpk
    have htl := decodePairs_encPairs tl input rest
      (pos + (encodeValue pos k).length +
        (encodeValue (pos + (encodeValue pos k).length) v).length) fuel hw.2 hadv2 hpv hf.2
    have hfin : pos + (encodeValue pos k).length +
        (encodeValue (pos + (encodeValue pos k).length) v).length +
        (encodePairs (pos + (encodeValue pos k).length +
          (encodeValue (pos + (encodeValue pos k).length) v).length) tl).length
        = pos + (encodePairs pos (ValuePairs.cons k v tl)).length := by
      simp only [encodePairs, List.length_append]
      omega
    rw [← hfin]
    simp only [ValuePairs.length, decodePairs, hk, hv, htl]

end

mutual

theorem encLen_ge_depth (v : Value) (pos : Nat) :
    v.depth ≤ (encodeValue pos v).length := by
  cases v with
  | list xs =>
    have htl := encList_len_ge_depth xs (pos + (12 :: encodeSize xs.length).length)
    simp only [List.length_cons] at htl
    simp only [Value.depth, encodeValue, List.length_cons, List.length_append]
    omega
  | map ps =>
    have htl := encPairs_len_ge_depth ps (pos + (13 :: encodeSize ps.length).length)
    simp only [List.length_cons] at htl
    simp only [Value.depth, encodeValue, List.length_cons, List.length_append]
    omega
  | nil => simp [Value.depth, encodeValue]
  | bool b => cases b <;> simp [Value.depth, encodeValue]
  | i32 x => simp [Value.depth, encodeValue]
  | i64 x => simp [Value.depth, encodeValue]
  | f64 bits => simp [Value.depth, encodeValue]
  | str bs => simp [Value.depth, encodeValue]
  | u8Data bs => simp [Value.depth, encodeValue]
  | i32Data xs => simp [Value.depth, encodeValue, encodePrim]
  | i64Data xs => simp [Value.depth, encodeValue, encodePrim]
  | f64Data xs => simp [Value.depth, encodeValue, encodePrim]
  | f32Data xs => simp [Value.depth, encodeValue, encodePrim]

theorem encList_len_ge_depth (xs : ValueList) (pos : Nat) :
    xs.depthList ≤ (encodeList pos xs).length := by
  cases xs with
  | nil => simp [ValueList.depthList, encodeList]
  | cons v tl =>
    have hv := encLen_ge_depth v pos
    have htl := encList_len_ge_depth tl (pos + (encodeValue pos v).length)
    simp only [ValueList.depthList, encodeList, List.length_append, Nat.max_le]
    omega

theorem encPairs_len_ge_depth (ps : ValuePairs) (pos : Nat) :
    ps.depthPairs ≤ (encodePairs pos ps).length := by
  cases ps with
  | nil => simp [ValuePairs.depthPairs, encodePairs]
  | cons k v tl =>
    have hk := encLen_ge_depth k pos
    have hv := encLen_ge_depth v (pos + (encodeValue pos k).length)
    have htl := encPairs_len_ge_depth tl
      (pos + (encodeValue pos k).length + (encodeValue (pos + (encodeValue pos k).length) v).length)
    simp only [ValuePairs.depthPairs, encodePairs, List.length_append, Nat.max_le]
    omega

end

/-- The codec round trip at the top level: decoding the encoding of any
constructible value yields the value back, with no trailing bytes. -/
theorem fromSliceValue_encodeValue (v : Value) (hw : v.wf = true) :
    fromSliceValue (encodeValue 0 v) = .ok v := by
  have hdrop : (encodeValue 0 v).drop 0 = encodeValue 0 v ++ [] := by simp
  have hfuel : v.depth ≤ (encodeValue 0 v).length + 1 := by
    have := encLen_ge_depth v 0
    omega
  have hmain := decodeValue_enc v (encodeValue 0 v) [] 0 ((encodeValue 0 v).length + 1)
    hw hdrop (by omega) hfuel
  simp [fromSliceValue, hmain]

theorem readBytes_eof_iff (input : List Nat) (pos n : Nat) :
    readBytes input pos n = .error .eof ↔ input.length < pos + n := by
  rw [readBytes]
  split <;> simp_all

theorem readData_eof_iff (input : List Nat) (pos len : Nat) :
    readData input pos len = .error .eof ↔ input.length < pos + len := by
  rw [readData]
  split <;> simp_all

theorem peekFieldType_invalid {input rest : List Nat} {pos b : Nat}
    (h : input.drop pos = b :: rest) (hb : fieldTypeOfByte b = none) :
    peekFieldType input pos = .error .invalidFieldType := by
  have hlt := drop_cons_lt h
  rw [peekFieldType, if_neg (by omega), h]
  simp [hb]

theorem decodeValue_invalid_tag {input rest : List Nat} {pos b f : Nat}
    (h : input.drop pos = b :: rest) (hb : fieldTypeOfByte b = none) :
    decodeValue (f + 1) input pos = .error .invalidFieldType := by
  simp [decodeValue, peekFieldType_invalid h hb]

theorem decodeValue_eof {input : List Nat} {pos f : Nat} (h : input.length ≤ pos) :
    decodeValue (f + 1) input pos = .error .eof := by
  rw [decodeValue, peekFieldType, if_pos h]

theorem readData_length {input bs : List Nat} {pos len pos2 : Nat}
    (h : readData input pos len = .ok (bs, pos2)) : bs.length = len ∧ pos2 = pos + len := by
  rw [readData] at h
  split at h
  · exact absurd h (by simp)
  · rename_i hc
    simp only [Except.ok.injEq, Prod.mk.injEq] at h
    constructor
    · rw [← h.1]
      simp [List.length_take, List.length_drop]
      omega
    · omega

theorem readPrimSeq_offsets {α : Type} (input : List Nat) (s : Nat) (conv : List Nat → α)
    (n : Nat) (pos : Nat) (xs : List α) (pos2 : Nat)
    (h : readPrimSeq input s conv n pos = .ok (xs, pos2)) :
    xs = (List.range n).map (fun k => conv ((input.drop (pos + k * s)).take s)) ∧
      pos2 = pos + n * s := by
  induction n generalizing pos xs pos2 with
  | zero =>
    simp only [readPrimSeq, Except.ok.injEq, Prod.mk.injEq] at h
    simp [← h.1, ← h.2]
  | succ n ih =>
    rw [readPrimSeq] at h
    cases hrd : readData input pos s with
    | error e => rw [hrd] at h; exact absurd h (by simp)
    | ok r =>
      obtain ⟨bs, pos1⟩ := r
      rw [hrd] at h
      dsimp only at h
      cases hrec : readPrimSeq input s conv n pos1 with
      | error e => rw [hrec] at h; exact absurd h (by simp)
      | ok r2 =>
        obtain ⟨ys, posr⟩ := r2
        rw [hrec] at h
        dsimp only at h
        simp only [Except.ok.injEq, Prod.mk.injEq] at h
        obtain ⟨hlen, hpos1⟩ := readData_length hrd
        subst hpos1
        obtain ⟨hys, hposr⟩ := ih _ _ _ hrec
        have hbs : bs = (input.drop pos).take s := by
          rw [readData] at hrd
          split at hrd
          · exact absurd hrd (by simp)
          · simp only [Except.ok.injEq, Prod.mk.injEq] at hrd
            exact hrd.1.symm
        constructor
        · rw [← h.1, hys, hbs]
          rw [List.range_succ_eq_map, List.map_cons, List.map_map]
          congr 1
          · simp
          · apply List.map_congr_left
            intro k _
            simp only [Function.comp_apply, Nat.succ_eq_add_one]
            congr 2
            ring
        · rw [← h.2, hposr]
          ring

/-- `alignPos` lands on the next multiple of a positive element size: it is a
multiple of `s`, does not move the cursor backwards, moves it by less than
`s`, and leaves an already-aligned cursor unchanged. -/
theorem alignPos_spec (pos s : Nat) (hs : 0 < s) :
    alignPos pos s % s = 0 ∧ pos ≤ alignPos pos s ∧ alignPos pos s < pos + s ∧
      (pos % s = 0 → alignPos pos s = pos) := by
  have hdm := Nat.div_add_mod pos s
  by_cases hz : pos % s = 0
  · rw [alignPos]
    simp [hz]
    omega
  · have hr : pos % s < s := Nat.mod_lt pos hs
    rw [alignPos]
    simp only [hz, if_pos, ne_eq, not_false_eq_true, if_true]
    refine ⟨?_, by omega, by omega, by intro hc; exact hc.elim⟩
    have hrw : pos + (s - pos % s) = s * (pos / s + 1) := by
      have hms : s * (pos / s + 1) = s * (pos / s) + s := Nat.mul_succ s (pos / s)
      omega
    rw [hrw]
    exact Nat.mul_mod_right s (pos / s + 1)

theorem decodeValue_int64Data_aligns {input rest : List Nat} {pos n f : Nat}
    (h : input.drop pos = 10 :: (encodeSize n ++ rest)) (hn : n < 4294967296) :
    decodeValue (f + 1) input pos =
      match readPrimSeq input 8 i64OfLE n
          (alignPos (pos + 1 + (encodeSize n).length) 8) with
      | .error e => .error e
      | .ok (xs, p) => .ok (.i64Data xs, p) := by
  have hadv1 : input.drop (pos + 1) = encodeSize n ++ rest := by
    have := drop_advance (l := [10]) h
    simpa using this
  have hp1 : pos + 1 ≤ input.length := drop_cons_lt h
  have hrs := readSize_encodeSize hadv1 hp1 hn
  simp only [decodeValue, peekFieldType_of_cons (t := .int64Data) h (by decide),
    readFieldType_of_cons (t := .int64Data) h (by decide), hrs]

/-- C1: codec round-trip — for every constructible message value (including
nested lists/maps and each numeric-array element type), decoding the encoding
of the value yields the value back, where the encoder chooses the smallest
size-prefix width matching the decoder's thresholds (the encoder is modelled
from the spec; the repository ships only the decoder). -/
theorem C1_codec_round_trip (v : Value) (hw : v.wf = true) :
    fromSliceValue (encodeValue 0 v) = .ok v :=
  fromSliceValue_encodeValue v hw

theorem C1_codec_round_trip_witness :
    (Value.list (.cons (.str [104, 105]) (.cons (.i64Data [1, -2]) (.cons
      (.map (.cons (.i32 7) (.f64 4614256656552045848) .nil)) (.cons (.f32Data [3, 4])
      (.cons (.u8Data [0, 255]) (.cons .nil (.cons (.bool true) .nil)))))))).wf = true ∧
    fromSliceValue (encodeValue 0 (Value.list (.cons (.str [104, 105]) (.cons
      (.i64Data [1, -2]) (.cons (.map (.cons (.i32 7) (.f64 4614256656552045848) .nil))
      (.cons (.f32Data [3, 4]) (.cons (.u8Data [0, 255]) (.cons .nil
      (.cons (.bool true) .nil)))))))))
      = .ok (Value.list (.cons (.str [104, 105]) (.cons (.i64Data [1, -2]) (.cons
      (.map (.cons (.i32 7) (.f64 4614256656552045848) .nil)) (.cons (.f32Data [3, 4])
      (.cons (.u8Data [0, 255]) (.cons .nil (.cons (.bool true) .nil)))))))) :=
  ⟨by decide, C1_codec_round_trip _ (by decide)⟩

/-- C3: decoding is total and memory-safe at the codec interface — a
fixed-width read (`read_bytes`) or run-time-length read (`read_data`) that
would pass the end of the buffer returns `Eof` (and only then); an
unrecognized type-tag byte makes the decoder return `InvalidFieldType`; a
decode attempted at or past the end of the buffer returns `Eof`.  The decoder
itself is a total function into `Except CodecError`, so no input can make it
panic or read out of bounds. -/
theorem C3_decode_totality :
    (∀ (input : List Nat) (pos n : Nat),
      readBytes input pos n = .error .eof ↔ input.length < pos + n) ∧
    (∀ (input : List Nat) (pos len : Nat),
      readData input pos len = .error .eof ↔ input.length < pos + len) ∧
    (∀ (input rest : List Nat) (pos b f : Nat), input.drop pos = b :: rest →
      fieldTypeOfByte b = none → decodeValue (f + 1) input pos = .error .invalidFieldType) ∧
    (∀ (input : List Nat) (pos f : Nat), input.length ≤ pos →
      decodeValue (f + 1) input pos = .error .eof) :=
  ⟨readBytes_eof_iff, readData_eof_iff,
   fun _ _ _ _ _ h hb => decodeValue_invalid_tag h hb,
   fun _ _ _ h => decodeValue_eof h⟩

theorem C3_decode_totality_witness :
    readBytes [0] 0 2 = .error .eof ∧ readData [0] 1 1 = .error .eof ∧
    decodeValue 1 [77] 0 = .error .invalidFieldType ∧
    decodeValue 1 [] 0 = .error .eof :=
  ⟨(C3_decode_totality.1 [0] 0 2).mpr (by decide),
   (C3_decode_totality.2.1 [0] 1 1).mpr (by decide),
   C3_decode_totality.2.2.1 [77] [] 0 77 0 rfl (by decide),
   C3_decode_totality.2.2.2 [] 0 0 (by decide)⟩

/-- C4: size-prefix decoding — `read_size` consumes one byte `b`; for
`b < 254` the size is `b` itself with no further bytes consumed; `b = 254`
reads a following little-endian 16-bit size; `b = 255` reads a following
little-endian 32-bit size. -/
theorem C4_size_decoding :
    (∀ (input rest : List Nat) (pos b : Nat), input.drop pos = b :: rest → b < 254 →
      readSize input pos = .ok (b, pos + 1)) ∧
    (∀ (input rest : List Nat) (pos b0 b1 : Nat),
      input.drop pos = 254 :: b0 :: b1 :: rest →
      readSize input pos = .ok (fromLE [b0, b1], pos + 3)) ∧
    (∀ (input rest : List Nat) (pos b0 b1 b2 b3 : Nat),
      input.drop pos = 255 :: b0 :: b1 :: b2 :: b3 :: rest →
      readSize input pos = .ok (fromLE [b0, b1, b2, b3], pos + 5)) := by
  refine ⟨fun input rest pos b h hb => ?_, fun input rest pos b0 b1 h => ?_,
    fun input rest pos b0 b1 b2 b3 h => ?_⟩
  · simp [readSize, readByte_of_cons h, hb]
  · have hadv : input.drop (pos + 1) = [b0, b1] ++ rest := by
      have := drop_advance (l := [254]) h
      simpa using this
    have hrb := readBytes_of_append (n := 2) hadv (by have := drop_cons_lt h; omega) rfl
    simp [readSize, readByte_of_cons h, hrb]
  · have hadv : input.drop (pos + 1) = [b0, b1, b2, b3] ++ rest := by
      have := drop_advance (l := [255]) h
      simpa using this
    have hrb := readBytes_of_append (n := 4) hadv (by have := drop_cons_lt h; omega) rfl
    simp [readSize, readByte_of_cons h, hrb]

theorem C4_size_decoding_witness :
    readSize [9] 0 = .ok (9, 1) ∧
    readSize [254, 1, 1] 0 = .ok (fromLE [1, 1], 3) ∧
    readSize [255, 0, 0, 1, 0] 0 = .ok (fromLE [0, 0, 1, 0], 5) :=
  ⟨C4_size_decoding.1 [9] [] 0 9 rfl (by decide),
   C4_size_decoding.2.1 [254, 1, 1] [] 0 1 1 rfl,
   C4_size_decoding.2.2 [255, 0, 0, 1, 0] [] 0 0 0 1 0 rfl⟩

/-- C5: typed-numeric-array alignment — (i) the packed-element reader reads
element `k` at `pos + k * s` for a start cursor `pos` and element size `s`,
ending at `pos + n * s`; (ii) the cursor alignment applied between the
element count and the first element (`alignPos`) lands on the next multiple
of the element size, moving the cursor forward by less than `s` and not at
all when already aligned; (iii) decoding an `Int64Data`-tagged array reads
its elements starting exactly at `alignPos` of the position right after the
tag and element count. -/
theorem C5_array_alignment :
    (∀ (α : Type) (input : List Nat) (s : Nat) (conv : List Nat → α) (n pos : Nat)
      (xs : List α) (pos2 : Nat),
      readPrimSeq input s conv n pos = .ok (xs, pos2) →
      xs = (List.range n).map (fun k => conv ((input.drop (pos + k * s)).take s)) ∧
        pos2 = pos + n * s) ∧
    (∀ (pos s : Nat), 0 < s →
      alignPos pos s % s = 0 ∧ pos ≤ alignPos pos s ∧ alignPos pos s < pos + s ∧
        (pos % s = 0 → alignPos pos s = pos)) ∧
    (∀ (input rest : List Nat) (pos n f : Nat),
      input.drop pos = 10 :: (encodeSize n ++ rest) → n < 4294967296 →
      decodeValue (f + 1) input pos =
        match readPrimSeq input 8 i64OfLE n
            (alignPos (pos + 1 + (encodeSize n).length) 8) with
        | .error e => .error e
        | .ok (xs, p) => .ok (.i64Data xs, p)) :=
  ⟨fun _ input s conv n pos xs pos2 h => readPrimSeq_offsets input s conv n pos xs pos2 h,
   alignPos_spec,
   fun _ _ _ _ _ h hn => decodeValue_int64Data_aligns h hn⟩

theorem C5_array_alignment_witness :
    ([1, 2] = (List.range 2).map
        (fun k => fromLE ((([1, 0, 0, 0, 2, 0, 0, 0] : List Nat).drop (0 + k * 4)).take 4)) ∧
      (8 : Nat) = 0 + 2 * 4) ∧
    (alignPos 5 8 % 8 = 0 ∧ 5 ≤ alignPos 5 8 ∧ alignPos 5 8 < 5 + 8 ∧
      (5 % 8 = 0 → alignPos 5 8 = 5)) ∧
    decodeValue 1 [10, 2] 0 =
      match readPrimSeq [10, 2] 8 i64OfLE 2 (alignPos (0 + 1 + (encodeSize 2).length) 8) with
      | .error e => .error e
      | .ok (xs, p) => .ok (.i64Data xs, p) :=
  ⟨C5_array_alignment.1 Nat [1, 0, 0, 0, 2, 0, 0, 0] 4 fromLE 2 0 [1, 2] 8 (by decide),
   C5_array_alignment.2.1 5 8 (by decide),
   C5_array_alignment.2.2 [10, 2] [] 0 2 0 (by decide) (by decide)⟩

/-- C10: decoding a wire `Int64`-tagged value through `deserialize_u64`
narrows it through a 32-bit visitor, so every encoded 64-bit value `v` with
`v < 0` or `v > 4294967295` fails with `ValueOutOfRange` instead of
returning `v`. -/
theorem C10_u64_narrows_to_u32 (x : Int) (h1 : -9223372036854775808 ≤ x)
    (h2 : x < 9223372036854775808) (hout : x < 0 ∨ 4294967295 < x) :
    deserializeU64 (4 :: toLE (x.emod 18446744073709551616).toNat 8) 0
      = .error .valueOutOfRange := by
  have hdrop : (4 :: toLE (x.emod 18446744073709551616).toNat 8).drop 0
      = 4 :: (toLE (x.emod 18446744073709551616).toNat 8 ++ []) := by simp
  have hrft := readFieldType_of_cons (t := .int64) hdrop (by decide)
  have hadv : (4 :: toLE (x.emod 18446744073709551616).toNat 8).drop 1
      = toLE (x.emod 18446744073709551616).toNat 8 ++ [] := by simp
  have hrb := readBytes_of_append hadv (by simp) (toLE_length _ 8)
  simp only [deserializeU64, hrft, hrb, i64OfLE_toLE x h1 h2]
  rw [if_pos hout]

theorem C10_u64_narrows_to_u32_witness :
    deserializeU64 (4 :: toLE ((-1 : Int).emod 18446744073709551616).toNat 8) 0
      = .error .valueOutOfRange :=
  C10_u64_narrows_to_u32 (-1) (by decide) (by decide) (Or.inl (by decide))

end MessageCodec

theorem insertText_collapse (kb : Keyboard) (t : List Char) :
    (insertText kb t).editingState.selectionExtent
      = (insertText kb t).editingState.selectionBase := by
  rw [insertText]

theorem editStep_client (kb : Keyboard) (clip : Option (List Char)) (k : LogicalKey) :
    (editStep kb clip k).1.client = kb.client := by
  rcases k with _ | _ | _ | _ | _ | _ | _ | _ | _ | _ | c | _ <;>
    simp only [editStep, moveHome, moveEnd, insertText, sendActionMsgs] <;>
    (repeat' split) <;>
    simp_all [moveHome, moveEnd, insertText]

theorem sendActionMsgs_detached (kb : Keyboard) (a : TextInputAction)
    (hc : kb.client = none) : sendActionMsgs kb a = [] := by
  simp [sendActionMsgs, hc]

theorem updateEditingStateMsgs_detached (kb : Keyboard) (hc : kb.client = none) :
    updateEditingStateMsgs kb = [] := by
  simp [updateEditingStateMsgs, hc]

theorem editStep_msgs_detached (kb : Keyboard) (clip : Option (List Char)) (k : LogicalKey)
    (hc : kb.client = none) :
    ∀ m ∈ (editStep kb clip k).2, m.isEditingOrAction = false := by
  rcases k with _ | _ | _ | _ | _ | _ | _ | _ | _ | _ | c | _ <;>
    simp only [editStep, sendActionMsgs_detached _ _ hc] <;>
    (repeat' split) <;>
    simp_all [sendActionMsgs, OutboundMessage.isEditingOrAction]

theorem presentLoop_eq (layers : List LayerContent) :
    ∀ (idx : Nat) (acc : List DrawCommand),
      presentLoop idx layers acc
        = acc ++ (layers.enumFrom idx).flatMap (fun p => layerCommands p.1 p.2) := by
  induction layers with
  | nil => intro idx acc; simp [presentLoop]
  | cons l rest ih =>
    intro idx acc
    rw [presentLoop, ih]
    simp [List.enumFrom, List.append_assoc]

/-- C2: for every platform message received from the engine — whatever the
channel name (even one that is not valid UTF-8), whether the payload parses
or not, and whether the channel is recognized or not — the deferred handler
calls the engine's send-platform-message-response entry point exactly once
with that message's response handle, and with a null, zero-length payload. -/
theorem C2_response_exactly_once (st : AppState) (channel : Option String)
    (parsed : Option TextInputMsg) (handle : Nat) :
    (platformMessageTask st channel parsed handle).2
      = [.sendPlatformMessageResponse handle []] := by
  rw [platformMessageTask.eq_def]
  rcases channel with _ | c
  · rfl
  · dsimp only
    split <;> rfl

/-- C6 as claimed is false on the code: with shift held, `move_home` moves the
selection-base to 0 and leaves the extent unchanged — not the other way
around.  Concretely, from a 10-scalar buffer with the selection collapsed at
8 and shift held, a Home key-down does not produce extent = 0 with base
still 8. -/
theorem C6_claimed_counterexample :
    ¬ (((keyEvent ⟨some 1, ⟨true, false⟩,
          ⟨List.replicate 10 'a', some 8, some 8⟩, .unspecified⟩
          none true ⟨true, .home⟩).1).editingState.selectionExtent = some 0 ∧
        ((keyEvent ⟨some 1, ⟨true, false⟩,
          ⟨List.replicate 10 'a', some 8, some 8⟩, .unspecified⟩
          none true ⟨true, .home⟩).1).editingState.selectionBase = some 8) := by
  decide

/-- C6 (amended): for every editing state with selection base and extent set,
a Home or Up key-down moves both selection ends to 0 when the shift modifier
is not held; when shift is held, only the selection-base moves to 0 and the
selection-extent is left unchanged. -/
theorem C6_home_up_amended (kb : Keyboard) (clip : Option (List Char)) (ev : KeyEvent)
    (hk : ev.logicalKey = .home ∨ ev.logicalKey = .arrowUp)
    (hpress : ev.pressed = true)
    (hbase : kb.editingState.selectionBase.isSome = true)
    (hext : kb.editingState.selectionExtent.isSome = true) :
    ((keyEvent kb clip true ev).1).editingState.selectionBase = some 0 ∧
      ((keyEvent kb clip true ev).1).editingState.selectionExtent
        = (if kb.modifiers.shift then kb.editingState.selectionExtent else some 0) := by
  obtain ⟨p, k⟩ := ev
  simp only at hk hpress
  subst hpress
  rcases hk with hk | hk <;> subst hk <;>
    cases hshift : kb.modifiers.shift <;>
      simp [keyEvent, hbase, hext, editStep, moveHome, hshift]

theorem C6_home_up_amended_witness :
    ((keyEvent ⟨some 1, ⟨true, false⟩,
        ⟨List.replicate 10 'a', some 8, some 8⟩, .unspecified⟩
        none true ⟨true, .home⟩).1).editingState.selectionBase = some 0 ∧
      ((keyEvent ⟨some 1, ⟨true, false⟩,
        ⟨List.replicate 10 'a', some 8, some 8⟩, .unspecified⟩
        none true ⟨true, .home⟩).1).editingState.selectionExtent
        = (if (⟨some 1, ⟨true, false⟩, ⟨List.replicate 10 'a', some 8, some 8⟩,
            .unspecified⟩ : Keyboard).modifiers.shift
          then (⟨some 1, ⟨true, false⟩, ⟨List.replicate 10 'a', some 8, some 8⟩,
            .unspecified⟩ : Keyboard).editingState.selectionExtent else some 0) :=
  C6_home_up_amended _ none ⟨true, .home⟩ (Or.inl rfl) rfl (by decide) (by decide)

/-- C7: every edit operation that deletes or replaces a non-empty selected
range — Backspace, Delete, Cut, a Paste whose clipboard read succeeds, and
text insertion (`insert_text`, the path used for pasted or printable text) —
leaves selection-base equal to selection-extent. -/
theorem C7_selection_collapse :
    (∀ (kb : Keyboard) (clip : Option (List Char)) (ev : KeyEvent) (b e : Nat),
      ev.pressed = true →
      kb.editingState.selectionBase = some b →
      kb.editingState.selectionExtent = some e →
      b ≠ e →
      (ev.logicalKey = .backspace ∨ ev.logicalKey = .delete ∨
        (ev.logicalKey = .character "x" ∧ kb.modifiers.actionKey = true) ∨
        (ev.logicalKey = .character "v" ∧ kb.modifiers.actionKey = true ∧
          clip.isSome = true)) →
      ((keyEvent kb clip true ev).1).editingState.selectionExtent
        = ((keyEvent kb clip true ev).1).editingState.selectionBase) ∧
    (∀ (kb : Keyboard) (t : List Char),
      (insertText kb t).editingState.selectionExtent
        = (insertText kb t).editingState.selectionBase) := by
  refine ⟨fun kb clip ev b e hpress hb he hne hop => ?_, insertText_collapse⟩
  obtain ⟨p, k⟩ := ev
  simp only at hpress hop
  subst hpress
  have hsne : ¬ (min b e = max b e) := by omega
  rcases hop with hk | hk | ⟨hk, hact⟩ | ⟨hk, hact, hclip⟩ <;> subst hk
  · simp [keyEvent, hb, he, editStep, hsne]
  · simp [keyEvent, hb, he, editStep, hsne]
  · simp [keyEvent, hb, he, editStep, hsne, hact,
      show ("x" : String) ≠ "a" from by decide]
  · obtain ⟨t, ht⟩ := Option.isSome_iff_exists.mp hclip
    subst ht
    simp [keyEvent, hb, he, editStep, hact,
      show ("v" : String) ≠ "a" from by decide,
      show ("v" : String) ≠ "x" from by decide,
      show ("v" : String) ≠ "c" from by decide,
      insertText_collapse]

theorem C7_selection_collapse_witness :
    ((keyEvent ⟨some 1, ⟨false, false⟩, ⟨['h', 'i'], some 0, some 2⟩, .unspecified⟩
        none true ⟨true, .backspace⟩).1).editingState.selectionExtent
      = ((keyEvent ⟨some 1, ⟨false, false⟩, ⟨['h', 'i'], some 0, some 2⟩, .unspecified⟩
        none true ⟨true, .backspace⟩).1).editingState.selectionBase :=
  C7_selection_collapse.1 _ none ⟨true, .backspace⟩ 0 2 rfl rfl rfl (by decide)
    (Or.inl rfl)

/-- C8: while the keyboard client is unset, no outbound update-editing-state
message and no perform-action message is ever sent to the engine, whatever
key event is processed (only the raw key event and possible clipboard writes
are emitted). -/
theorem C8_detached_silent (kb : Keyboard) (clip : Option (List Char)) (translated : Bool)
    (ev : KeyEvent) (hc : kb.client = none) :
    ((keyEvent kb clip translated ev).2).all (fun m => !m.isEditingOrAction) = true := by
  rw [List.all_eq_true]
  intro m hm
  rw [keyEvent] at hm
  split at hm
  · exact absurd hm (List.not_mem_nil m)
  · split at hm
    · simp only [List.mem_cons, List.mem_append] at hm
      rcases hm with rfl | hm | hm
      · rfl
      · have := editStep_msgs_detached kb clip ev.logicalKey hc m hm
        simp [this]
      · rw [updateEditingStateMsgs_detached _
            (by rw [editStep_client]; exact hc)] at hm
        exact absurd hm (List.not_mem_nil m)
    · simp only [List.mem_singleton] at hm
      subst hm
      rfl

theorem C8_detached_silent_witness :
    ((keyEvent ⟨none, ⟨false, true⟩, ⟨['h', 'i'], some 0, some 2⟩, .unspecified⟩
        (some ['z']) true ⟨true, .enter⟩).2).all (fun m => !m.isEditingOrAction) = true :=
  C8_detached_silent _ (some ['z']) true ⟨true, .enter⟩ rfl

/-- C9: compositor layer ordering — the command trace of a present call is
the fixed render-pass prologue followed by each layer's draw calls in
engine-given list order; in particular for layers `[A, B]` every call of `B`
is issued after every call of `A` within the single render pass, with no
z-reordering by the host. -/
theorem C9_layer_order :
    (∀ layers : List LayerContent,
      presentTrace layers
        = .setPipeline :: (layers.enumFrom 0).flatMap (fun p => layerCommands p.1 p.2)) ∧
    (∀ a b : LayerContent,
      presentTrace [a, b]
        = [DrawCommand.setPipeline] ++ layerCommands 0 a ++ layerCommands 1 b) := by
  constructor
  · intro layers
    rw [presentTrace, presentLoop_eq]
    rfl
  · intro a b
    rw [presentTrace, presentLoop_eq]
    simp [List.enumFrom, List.append_assoc]
